import Mathlib

/-!
Verification of the QueueCTL job-queue core: the `Job` state machine
(src/core/Job.ts), the in-memory scheduling index (src/core/Queue.ts) and
the two storage backends (src/storage/JsonStorage.ts, SqliteStorage.ts).

Modelling conventions:
* timestamps are instants in milliseconds since the epoch, embedded as `Int`;
  the code stores them as canonical ISO-8601 strings, on which parse/print
  (`new Date(s).toISOString()`) is the identity and string comparison agrees
  with chronological comparison, so the `Int` model is faithful;
* JavaScript numbers are embedded as `Int` (all values the code manipulates
  are integers);
* thrown exceptions are `Except String`; a mutating method becomes a function
  from the old value to `Except String` of the new value.
-/

deriving instance DecidableEq for Except

namespace QueueCTL

/-- The five job states of `JobState` in src/types/index.ts. -/
inductive JobState where
  | pending
  | processing
  | completed
  | failed
  | dead
deriving DecidableEq, Repr

/-- A job record.  The `Job` entity class and its serialized form `JobJSON`
have exactly the same fields, so one structure embeds both (`toJSON` is the
field-by-field copy). -/
structure Job where
  id : String
  command : String
  state : JobState
  attempts : Int
  max_retries : Int
  created_at : Int
  updated_at : Int
  run_at : Option Int
  next_attempt_at : Option Int
  backoff_base : Option Int
  last_error : Option String
deriving DecidableEq, Repr

def DEFAULT_MAX_RETRIES : Int := 3

def DEFAULT_BACKOFF_BASE : Int := 2

/-- JavaScript `String.prototype.trim`: strip leading and trailing
whitespace (kernel-reducible embedding of `String.trim`). -/
def jsTrim (s : String) : String :=
  String.mk (((s.data.dropWhile Char.isWhitespace).reverse.dropWhile
    Char.isWhitespace).reverse)

namespace Job

/-- `Job.validate`: the invariant checks run by the constructor paths.
The state-enum membership check of the source is vacuous here because
`JobState` is an enumeration. -/
def validate (j : Job) : Except String Unit :=
  if j.id = "" then .error "Job.id is required"
  else if j.command = "" then .error "Job.command is required"
  else if j.attempts < 0 then .error "Job.attempts cannot be negative"
  else if j.max_retries < 0 then .error "Job.max_retries cannot be negative"
  else if j.backoff_base.getD DEFAULT_BACKOFF_BASE < 1 then
    .error "Job.backoff_base must be >= 1"
  else .ok ()

/-- The record `Job.create` builds before validating. -/
def createRecord (id command : String) (max_retries backoff_base : Option Int)
    (run_at : Option Int) (now : Int) : Job :=
  { id := id
    command := jsTrim command
    state := .pending
    attempts := 0
    max_retries := max_retries.getD DEFAULT_MAX_RETRIES
    created_at := now
    updated_at := now
    run_at := run_at
    next_attempt_at := none
    backoff_base := some (backoff_base.getD DEFAULT_BACKOFF_BASE)
    last_error := none }

/-- `Job.create`: factory for new jobs.  The random UUID of the source is
passed in as `id`; `now` is the wall clock used for `created_at`/`updated_at`. -/
def create (id command : String) (max_retries backoff_base : Option Int)
    (run_at : Option Int) (now : Int) : Except String Job :=
  match validate (createRecord id command max_retries backoff_base run_at now) with
  | .error e => .error e
  | .ok _ => .ok (createRecord id command max_retries backoff_base run_at now)

/-- `Job.toJSON`: field-by-field copy into the serialized record. -/
def toJSON (j : Job) : Job :=
  { id := j.id
    command := j.command
    state := j.state
    attempts := j.attempts
    max_retries := j.max_retries
    created_at := j.created_at
    updated_at := j.updated_at
    run_at := j.run_at
    next_attempt_at := j.next_attempt_at
    backoff_base := j.backoff_base
    last_error := j.last_error }

/-- The normalization `Job.fromJSON` applies: re-parse and re-print the four
timestamp fields (the identity on canonical instants) and default
`backoff_base`. -/
def normalizeRecord (json : Job) : Job :=
  { json with backoff_base := some (json.backoff_base.getD DEFAULT_BACKOFF_BASE) }

/-- `Job.fromJSON`: hydrate from persisted JSON — normalize, validate,
return. -/
def fromJSON (json : Job) : Except String Job :=
  match validate (normalizeRecord json) with
  | .error e => .error e
  | .ok _ => .ok (normalizeRecord json)

/-- `Job.markProcessing`: legal from `pending` or `failed` only.
Note: it does not touch `next_attempt_at`. -/
def markProcessing (j : Job) (now : Int) : Except String Job :=
  if j.state = .pending ∨ j.state = .failed then
    .ok { j with state := .processing, updated_at := now }
  else .error "Cannot markProcessing from state"

/-- `Job.markCompleted`: legal from `processing` only; clears `last_error`
and `next_attempt_at`. -/
def markCompleted (j : Job) (now : Int) : Except String Job :=
  if j.state = .processing then
    .ok { j with state := .completed, updated_at := now,
                 last_error := none, next_attempt_at := none }
  else .error "Cannot markCompleted from state"

/-- `Job.getBackoffDelaySeconds`: `base ^ attemptNumber` (the code uses
`Math.pow`; every reachable call has an integer base ≥ 1 and a non-negative
integer exponent). -/
def getBackoffDelaySeconds (j : Job) (attemptNumber : Int) : Int :=
  (j.backoff_base.getD DEFAULT_BACKOFF_BASE) ^ attemptNumber.toNat

/-- `Job.markFailed`: legal from `processing` only.  Increments `attempts`;
`attempts > max_retries` goes to `dead` (clearing `next_attempt_at`),
otherwise to `failed` with `next_attempt_at = now + base^attempts` seconds
(`now` is the wall clock at failure time). -/
def markFailed (j : Job) (err : String) (now : Int) : Except String Job :=
  if j.state = .processing then
    if j.attempts + 1 > j.max_retries then
      .ok { j with attempts := j.attempts + 1, updated_at := now,
                   last_error := some err, state := .dead, next_attempt_at := none }
    else
      .ok { j with attempts := j.attempts + 1, updated_at := now,
                   last_error := some err, state := .failed,
                   next_attempt_at :=
                     some (now + j.getBackoffDelaySeconds (j.attempts + 1) * 1000) }
  else .error "Cannot markFailed from state"

/-- `Job.isRetryable`: `attempts < max_retries` and state neither `dead`
nor `completed`. -/
def isRetryable (j : Job) : Bool :=
  decide (j.attempts < j.max_retries) && decide (j.state ≠ .dead)
    && decide (j.state ≠ .completed)

/-- `Job.isDue`: due when `pending` and past `run_at` (or `run_at` unset),
or `failed`, retryable, and past `next_attempt_at` (or unset). -/
def isDue (j : Job) (atTime : Int) : Bool :=
  if j.state = .pending then
    match j.run_at with
    | none => true
    | some r => decide (r ≤ atTime)
  else if j.state = .failed && j.isRetryable then
    match j.next_attempt_at with
    | none => true
    | some n => decide (n ≤ atTime)
  else false

/-- `Job.resetForRetry`: legal from `dead` or `failed`; back to `pending`,
zeroing `attempts` unless `keepAttempts`, clearing `next_attempt_at` and
`last_error`. -/
def resetForRetry (j : Job) (keepAttempts : Bool) (now : Int) : Except String Job :=
  if j.state = .dead ∨ j.state = .failed then
    .ok { j with attempts := if keepAttempts then j.attempts else 0,
                 state := .pending, updated_at := now,
                 next_attempt_at := none, last_error := none }
  else .error "Cannot resetForRetry from state"

end Job

/-! ## Storage backends

`JsonStorage` persists two whole-collection JSON documents (`jobs.json`,
`dlq.json`); every mutating operation runs inside an exclusive lock-file
critical section, so each operation is one atomic step on the pair of
collections.  `SqliteStorage` keeps a `jobs` table (primary key `id`) and a
`dlq` table (primary key `id`, columns `payload`, `dead_at`); its
transactions roll back on a thrown error, which the embedding renders as
`Except.error` with the caller keeping the pre-state. -/

/-- `jobs.findIndex(j => j.id === id)` followed by `splice(idx, 1)`:
remove the first record with the given id, no-op when absent. -/
def removeFirstById : List Job → String → List Job
  | [], _ => []
  | j :: rest, id => if j.id = id then rest else j :: removeFirstById rest id

/-- Find the first record with the given id and return it together with the
collection with that record removed. -/
def extractFirstById : List Job → String → Option (Job × List Job)
  | [], _ => none
  | j :: rest, id =>
    if j.id = id then some (j, rest)
    else
      match extractFirstById rest id with
      | none => none
      | some (found, rest2) => some (found, j :: rest2)

/-- `jobs[jdx] = record` at the first index whose record has `record.id`;
unchanged when absent. -/
def replaceFirstById : List Job → Job → List Job
  | [], _ => []
  | j :: rest, record =>
    if j.id = record.id then record :: rest else j :: replaceFirstById rest record

/-- Replace the first record with the record's id when present, else append
(the `some`/`findIndex`/`push` sequence of `JsonStorage.retryFromDLQ`). -/
def upsertById (jobs : List Job) (record : Job) : List Job :=
  if jobs.any (fun j => j.id = record.id) then replaceFirstById jobs record
  else jobs ++ [record]

/-- `JsonStorage.effectiveDueAt` (module-level helper):
`next_attempt_at ?? run_at ?? created_at`, as an instant. -/
def effectiveDueAtJson (j : Job) : Int :=
  j.next_attempt_at.getD (j.run_at.getD j.created_at)

/-- Sort key used by both backends when picking the lease candidate:
effective due time first, then `created_at`. -/
def leaseKey (j : Job) : Int × Int :=
  (effectiveDueAtJson j, j.created_at)

/-- Strict lexicographic comparison on lease keys (the JavaScript comparator
`ad - bd` / `createdA - createdB`). -/
def leaseKeyLt (a b : Int × Int) : Bool :=
  decide (a.1 < b.1) || (decide (a.1 = b.1) && decide (a.2 < b.2))

/-- `candidates.sort(cmp)[0]` with a stable sort: the first candidate in
collection order whose key is minimal. -/
def selectFirstMin : Job → List Job → Job
  | best, [] => best
  | best, j :: rest =>
    selectFirstMin (if leaseKeyLt (leaseKey j) (leaseKey best) then j else best) rest

/-- The `for` loop of `JsonStorage.leaseNext`: hydrate each stored record
(a validation failure propagates as a thrown error) and keep those that are
due at `atTime`. -/
def collectDue : List Job → Int → Except String (List Job)
  | [], _ => .ok []
  | j :: rest, atTime =>
    match Job.fromJSON j with
    | .error e => .error e
    | .ok job =>
      match collectDue rest atTime with
      | .error e => .error e
      | .ok tail => if job.isDue atTime then .ok (j :: tail) else .ok tail

/-- `jobs[idx] = { ...jobs[idx], state: 'processing', updated_at: now }` at
the first index whose record has the given id; returns the leased record and
the updated collection. -/
def leaseAt : List Job → String → Int → Option (Job × List Job)
  | [], _, _ => none
  | j :: rest, id, now =>
    if j.id = id then
      let leased := { j with state := .processing, updated_at := now }
      some (leased, leased :: rest)
    else
      match leaseAt rest id now with
      | none => none
      | some (l, rest2) => some (l, j :: rest2)

/-- The flat-file store: the parsed contents of `jobs.json` and `dlq.json`. -/
structure JsonStore where
  jobs : List Job
  dlq : List Job
deriving DecidableEq, Repr

/-- `JsonStorage.enqueue`: reject an existing id, else append `job.toJSON()`. -/
def jsonEnqueue (s : JsonStore) (job : Job) : Except String JsonStore :=
  if s.jobs.any (fun j => j.id = job.id) then .error "Job already exists"
  else .ok { s with jobs := s.jobs ++ [job.toJSON] }

/-- `JsonStorage.update`: replace the record with the job's id, error when
absent. -/
def jsonUpdate (s : JsonStore) (job : Job) : Except String JsonStore :=
  match extractFirstById s.jobs job.id with
  | none => .error "Job not found"
  | some _ => .ok { s with jobs := replaceFirstById s.jobs job.toJSON }

/-- `JsonStorage.moveToDLQ`: drop the record with the job's id from the main
collection when present, and unconditionally append the job's snapshot to
the DLQ.  Total: no NotFound check, no duplicate check. -/
def jsonMoveToDLQ (s : JsonStore) (job : Job) : JsonStore :=
  { jobs := removeFirstById s.jobs job.id, dlq := s.dlq ++ [job.toJSON] }

/-- `JsonStorage.leaseNext(at)`: collect the due candidates, pick the
first-minimal one by `(effectiveDueAt, created_at)`, flip it to
`processing` in place (with wall-clock `now` as `updated_at`) and return its
hydrated form. -/
def jsonLeaseNext (s : JsonStore) (atTime now : Int) :
    Except String (Option Job × JsonStore) :=
  match collectDue s.jobs atTime with
  | .error e => .error e
  | .ok [] => .ok (none, s)
  | .ok (c :: cs) =>
    let selected := selectFirstMin c cs
    match leaseAt s.jobs selected.id now with
    | none => .ok (none, s)
    | some (leased, jobs2) =>
      match Job.fromJSON leased with
      | .error e => .error e
      | .ok job => .ok (some job, { s with jobs := jobs2 })

/-- `JsonStorage.listDLQ`: hydrate every DLQ snapshot. -/
def jsonListDLQ (s : JsonStore) : Except String (List Job) :=
  s.dlq.mapM Job.fromJSON

/-- `JsonStorage.retryFromDLQ`: remove the first DLQ snapshot with the id,
hydrate it, `resetForRetry({ keepAttempts: false })`, re-insert into the
main collection (overwriting an existing record with the same id), and
return the revived job.  A thrown error escapes the critical section before
any file write, leaving both collections unchanged. -/
def jsonRetryFromDLQ (s : JsonStore) (id : String) (now : Int) :
    Except String (Option Job × JsonStore) :=
  match extractFirstById s.dlq id with
  | none => .ok (none, s)
  | some (payload, dlq2) =>
    match Job.fromJSON payload with
    | .error e => .error e
    | .ok job =>
      match job.resetForRetry false now with
      | .error e => .error e
      | .ok job2 =>
        .ok (some job2, { jobs := upsertById s.jobs job2.toJSON, dlq := dlq2 })

/-- A row of the SQLite `dlq` table: primary-key id, serialized snapshot,
death timestamp. -/
structure DlqRow where
  id : String
  payload : Job
  dead_at : Int
deriving DecidableEq, Repr

/-- The relational store: the `jobs` table (primary key `id`) and the `dlq`
table (primary key `id`). -/
structure SqliteStore where
  jobs : List Job
  dlq : List DlqRow
deriving DecidableEq, Repr

/-- The SQL due predicate of `SqliteStorage.leaseNext` (note: unlike
`Job.isDue` it has no `attempts < max_retries` condition on failed rows):
`(state='pending' AND (run_at IS NULL OR run_at <= ?)) OR (state='failed'
AND (next_attempt_at IS NULL OR next_attempt_at <= ?))`. -/
def sqlDueB (j : Job) (atTime : Int) : Bool :=
  (decide (j.state = .pending) &&
    (match j.run_at with
     | none => true
     | some r => decide (r ≤ atTime)))
  ||
  (decide (j.state = .failed) &&
    (match j.next_attempt_at with
     | none => true
     | some n => decide (n ≤ atTime)))

/-- `SqliteStorage.enqueue`: plain INSERT; a duplicate id violates the
primary key. -/
def sqliteEnqueue (s : SqliteStore) (job : Job) : Except String SqliteStore :=
  if s.jobs.any (fun j => j.id = job.id) then
    .error "UNIQUE constraint failed: jobs.id"
  else .ok { s with jobs := s.jobs ++ [job.toJSON] }

/-- `SqliteStorage.moveToDLQ`: one transaction deleting the id from `jobs`
and inserting the snapshot into `dlq`; a duplicate DLQ id violates the DLQ
primary key and rolls the transaction back. -/
def sqliteMoveToDLQ (s : SqliteStore) (job : Job) (now : Int) :
    Except String SqliteStore :=
  let jobs2 := s.jobs.filter (fun j => decide (j.id ≠ job.id))
  if s.dlq.any (fun r => r.id = job.id) then
    .error "UNIQUE constraint failed: dlq.id"
  else .ok { jobs := jobs2, dlq := s.dlq ++ [⟨job.id, job.toJSON, now⟩] }

/-- `SqliteStorage.leaseNext(at)`: select the first row (in rowid order)
minimal by `(COALESCE(next_attempt_at, run_at, created_at), created_at)`
among the SQL-due rows, conditionally flip it to `processing` with
`updated_at = at` (the conditional re-check always succeeds in a serial
execution), and return the hydrated row. -/
def sqliteLeaseNext (s : SqliteStore) (atTime : Int) :
    Except String (Option Job × SqliteStore) :=
  match s.jobs.filter (fun j => sqlDueB j atTime) with
  | [] => .ok (none, s)
  | c :: cs =>
    let selected := selectFirstMin c cs
    match leaseAt s.jobs selected.id atTime with
    | none => .ok (none, s)
    | some (leased, jobs2) =>
      match Job.fromJSON leased with
      | .error e => .error e
      | .ok job => .ok (some job, { s with jobs := jobs2 })

/-- `SqliteStorage.retryFromDLQ`: one transaction: select the DLQ row by id
(absent id returns null), delete it, hydrate the snapshot (stored payloads
always parse, so the JSON.parse catch branch is unreachable),
`resetForRetry({ keepAttempts: false })`, and re-insert via `enqueue` (plain
INSERT).  Any thrown error — including the primary-key violation when the
main table already holds the id — rolls the whole transaction back. -/
def sqliteRetryFromDLQ (s : SqliteStore) (id : String) (now : Int) :
    Except String (Option Job × SqliteStore) :=
  match s.dlq.find? (fun r => r.id = id) with
  | none => .ok (none, s)
  | some row =>
    let dlq2 := s.dlq.filter (fun r => decide (r.id ≠ id))
    match Job.fromJSON row.payload with
    | .error e => .error e
    | .ok j =>
      match j.resetForRetry false now with
      | .error e => .error e
      | .ok j2 =>
        if s.jobs.any (fun x => x.id = j2.id) then
          .error "UNIQUE constraint failed: jobs.id"
        else .ok (some j2, { jobs := s.jobs ++ [j2.toJSON], dlq := dlq2 })

/-! ## Job-level reachability

The set of job values producible from `Job.create` through the transition
methods, the `Queue.requeue` fallback write, and the state change a storage
`leaseNext` applies to the selected record (both backends set exactly
`state = 'processing'` and `updated_at` and rehydrate via `fromJSON`; the
selected record satisfies the backend's due predicate, of which the SQL one
is the weaker). -/
inductive Reachable : Job → Prop where
  | create (id cmd : String) (mr bb ra : Option Int) (now : Int) (j : Job) :
      Job.create id cmd mr bb ra now = .ok j → Reachable j
  | markProcessing (j : Job) (now : Int) (j' : Job) :
      Reachable j → j.markProcessing now = .ok j' → Reachable j'
  | markCompleted (j : Job) (now : Int) (j' : Job) :
      Reachable j → j.markCompleted now = .ok j' → Reachable j'
  | markFailed (j : Job) (e : String) (now : Int) (j' : Job) :
      Reachable j → j.markFailed e now = .ok j' → Reachable j'
  | resetForRetry (j : Job) (keep : Bool) (now : Int) (j' : Job) :
      Reachable j → j.resetForRetry keep now = .ok j' → Reachable j'
  | requeue (j : Job) (now : Int) :
      Reachable j →
      (j.state = .failed ∨ j.state = .processing ∨ j.state = .pending) →
      Reachable { j with state := .pending, next_attempt_at := none, updated_at := now }
  | lease (j : Job) (atTime now : Int) (j' : Job) :
      Reachable j → sqlDueB j atTime = true →
      Job.fromJSON { j with state := .processing, updated_at := now } = .ok j' →
      Reachable j'

/-! ## Queue — the in-memory scheduling index (src/core/Queue.ts)

JavaScript `Map`s are embedded as insertion-ordered association lists whose
`set` replaces in place at an existing key and appends otherwise; the job
map's key always equals the stored job's `id` field, so it is kept as a
plain list keyed by `id`.  JavaScript `Set`s are insertion-ordered
duplicate-free lists (`add` appends when absent, `delete` removes). -/

/-- `Set.add`. -/
def setAdd (l : List String) (id : String) : List String :=
  if l.contains id then l else l ++ [id]

/-- `Set.delete`. -/
def setDel (l : List String) (id : String) : List String :=
  l.filter (fun x => decide (x ≠ id))

/-- `Map.prototype.get` on an association list. -/
def alookup {α : Type} (l : List (String × α)) (id : String) : Option α :=
  (l.find? (fun p => p.1 = id)).map Prod.snd

/-- `Map.prototype.set` on an association list. -/
def aset {α : Type} : List (String × α) → String → α → List (String × α)
  | [], id, v => [(id, v)]
  | p :: rest, id, v => if p.1 = id then (id, v) :: rest else p :: aset rest id v

/-- The five per-state id sets of `Queue.byState`. -/
structure ByState where
  pending : List String
  processing : List String
  completed : List String
  failed : List String
  dead : List String
deriving DecidableEq, Repr

def ByState.get (b : ByState) : JobState → List String
  | .pending => b.pending
  | .processing => b.processing
  | .completed => b.completed
  | .failed => b.failed
  | .dead => b.dead

def ByState.update (b : ByState) (st : JobState) (f : List String → List String) :
    ByState :=
  match st with
  | .pending => { b with pending := f b.pending }
  | .processing => { b with processing := f b.processing }
  | .completed => { b with completed := f b.completed }
  | .failed => { b with failed := f b.failed }
  | .dead => { b with dead := f b.dead }

/-- The private fields of a `Queue` instance. -/
structure QueueState where
  jobs : List Job
  stateOf : List (String × JobState)
  byState : ByState
  insertSeq : Int
  insertionOrder : List (String × Int)
deriving DecidableEq, Repr

/-- The empty queue produced by the constructor. -/
def emptyQueue : QueueState :=
  { jobs := [], stateOf := [], byState := ⟨[], [], [], [], []⟩,
    insertSeq := 0, insertionOrder := [] }

/-- Find the first record with the given id (`Map.get` on a collection
keyed by the jobs' own ids). -/
def findById (l : List Job) (id : String) : Option Job :=
  l.find? (fun j => j.id = id)

/-- `this.jobs.get(id)`. -/
def lookupJ (q : QueueState) (id : String) : Option Job :=
  findById q.jobs id

/-- `this.jobs.set(j.id, j)`. -/
def setJ (jobs : List Job) (j : Job) : List Job :=
  if jobs.any (fun x => x.id = j.id) then replaceFirstById jobs j else jobs ++ [j]

/-- `Queue.moveState`: remove the id from the current state's set (when the
index knows a different current state), add it to the next state's set and
record the new state. -/
def moveState (q : QueueState) (id : String) (next : JobState) : QueueState :=
  let b :=
    match alookup q.stateOf id with
    | some cur => if cur ≠ next then q.byState.update cur (fun l => setDel l id) else q.byState
    | none => q.byState
  { q with byState := b.update next (fun l => setAdd l id),
           stateOf := aset q.stateOf id next }

namespace Queue

/-- `Queue.enqueue`: reject an existing id or a non-`pending` job, then
register the job, its state, its state-set membership and its insertion
sequence number. -/
def enqueue (q : QueueState) (job : Job) : Except String QueueState :=
  if (lookupJ q job.id).isSome then .error "Job already exists"
  else if job.state ≠ .pending then
    .error "Can only enqueue jobs in pending state"
  else
    let seq := q.insertSeq + 1
    .ok { jobs := setJ q.jobs job,
          stateOf := aset q.stateOf job.id job.state,
          byState := q.byState.update job.state (fun l => setAdd l job.id),
          insertSeq := seq,
          insertionOrder := aset q.insertionOrder job.id seq }

/-- `Queue.effectiveDueAt`: `pending` → `run_at ?? created_at`; retryable
`failed` → `next_attempt_at ?? now` (wall clock); other states are not
schedulable. -/
def effectiveDueAt (j : Job) (now : Int) : Option Int :=
  if j.state = .pending then some (j.run_at.getD j.created_at)
  else if j.state = .failed && j.isRetryable then some (j.next_attempt_at.getD now)
  else none

/-- The running selection of `Queue.dequeue`. -/
structure Sel where
  id : String
  dueAt : Int
  seq : Int
deriving DecidableEq, Repr

/-- The `consider` closure of `Queue.dequeue`: skip missing, not-due or
unschedulable jobs; otherwise keep the candidate when it strictly improves
the current `(dueAt, seq)` selection. -/
def consider (q : QueueState) (atTime now : Int) (sel : Option Sel) (id : String) :
    Option Sel :=
  match lookupJ q id with
  | none => sel
  | some job =>
    if job.isDue atTime then
      match effectiveDueAt job now with
      | none => sel
      | some dueAt =>
        let seq := (alookup q.insertionOrder id).getD 0
        match sel with
        | none => some ⟨id, dueAt, seq⟩
        | some s =>
          if dueAt < s.dueAt ∨ (dueAt = s.dueAt ∧ seq < s.seq) then
            some ⟨id, dueAt, seq⟩
          else sel
    else sel

/-- `Queue.dequeue(at)`: run `consider` over the `pending` set then the
`failed` set, and transition the winner to `processing` via
`markProcessing` (updating the indexes). -/
def dequeue (q : QueueState) (atTime now : Int) :
    Except String (Option Job × QueueState) :=
  match (q.byState.pending ++ q.byState.failed).foldl (consider q atTime now) none with
  | none => .ok (none, q)
  | some s =>
    match lookupJ q s.id with
    | none => .error "Job not found"
    | some job =>
      match job.markProcessing now with
      | .error e => .error e
      | .ok job2 =>
        .ok (some job2, moveState { q with jobs := setJ q.jobs job2 } s.id .processing)

/-- `Queue.complete`: index state must be `processing`; delegates to
`markCompleted` and moves the id to the `completed` set. -/
def complete (q : QueueState) (jobId : String) (now : Int) :
    Except String (Job × QueueState) :=
  match lookupJ q jobId with
  | none => .error "Job not found"
  | some job =>
    if alookup q.stateOf jobId ≠ some JobState.processing then
      .error "complete() requires processing state"
    else
      match job.markCompleted now with
      | .error e => .error e
      | .ok job2 =>
        .ok (job2, moveState { q with jobs := setJ q.jobs job2 } jobId .completed)

/-- `Queue.fail`: index state must be `processing`; delegates to
`markFailed` and moves the id to `dead` or `failed` according to the
resulting state. -/
def fail (q : QueueState) (jobId : String) (err : String) (now : Int) :
    Except String (Job × QueueState) :=
  match lookupJ q jobId with
  | none => .error "Job not found"
  | some job =>
    if alookup q.stateOf jobId ≠ some JobState.processing then
      .error "fail() requires processing state"
    else
      match job.markFailed err now with
      | .error e => .error e
      | .ok job2 =>
        let next := if job2.state = .dead then JobState.dead else JobState.failed
        .ok (job2, moveState { q with jobs := setJ q.jobs job2 } jobId next)

/-- `Queue.requeue`: legal from `failed`, `processing` or `pending`; the
`Job` class has no `markPending` method, so the fallback branch runs: it
directly writes `state = 'pending'`, clears `next_attempt_at`, bumps
`updated_at` (keeping `attempts` and `last_error`), and moves the id to the
`pending` set. -/
def requeue (q : QueueState) (jobId : String) (now : Int) :
    Except String (Job × QueueState) :=
  match lookupJ q jobId with
  | none => .error "Job not found"
  | some job =>
    if job.state = .failed ∨ job.state = .processing ∨ job.state = .pending then
      let job2 := { job with state := JobState.pending, next_attempt_at := none,
                             updated_at := now }
      .ok (job2, moveState { q with jobs := setJ q.jobs job2 } jobId .pending)
    else .error "requeue() cannot apply from state"

/-- `Queue.resetForRetry`: delegates to the job's own `resetForRetry` and
moves the id to the `pending` set. -/
def resetForRetry (q : QueueState) (jobId : String) (keep : Bool) (now : Int) :
    Except String (Job × QueueState) :=
  match lookupJ q jobId with
  | none => .error "Job not found"
  | some job =>
    match job.resetForRetry keep now with
    | .error e => .error e
    | .ok job2 =>
      .ok (job2, moveState { q with jobs := setJ q.jobs job2 } jobId .pending)

/-- `Queue.updateJob`: replace the stored job object and repair the
per-state indexes when the incoming object's state differs from what the
index currently records. -/
def updateJob (q : QueueState) (updated : Job) : Except String QueueState :=
  match lookupJ q updated.id with
  | none => .error "Job not found"
  | some _ =>
    let prevState := alookup q.stateOf updated.id
    let q1 := { q with jobs := setJ q.jobs updated }
    if prevState ≠ some updated.state then
      let b :=
        match prevState with
        | some p => q1.byState.update p (fun l => setDel l updated.id)
        | none => q1.byState
      .ok { q1 with byState := b.update updated.state (fun l => setAdd l updated.id),
                    stateOf := aset q1.stateOf updated.id updated.state }
    else .ok q1

end Queue

/-- One call against the `Queue` API, for reasoning about operation
sequences. -/
inductive QOp where
  | enq (j : Job)
  | deq (atTime now : Int)
  | comp (id : String) (now : Int)
  | fl (id : String) (e : String) (now : Int)
  | req (id : String) (now : Int)
  | rst (id : String) (keep : Bool) (now : Int)
  | upd (j : Job)
deriving DecidableEq, Repr

/-- Apply one call; a thrown error leaves the queue unchanged (every error
in Queue.ts is raised before any mutation). -/
def applyOp (q : QueueState) : QOp → QueueState
  | .enq j =>
    match Queue.enqueue q j with
    | .ok q2 => q2
    | .error _ => q
  | .deq a n =>
    match Queue.dequeue q a n with
    | .ok (_, q2) => q2
    | .error _ => q
  | .comp id n =>
    match Queue.complete q id n with
    | .ok (_, q2) => q2
    | .error _ => q
  | .fl id e n =>
    match Queue.fail q id e n with
    | .ok (_, q2) => q2
    | .error _ => q
  | .req id n =>
    match Queue.requeue q id n with
    | .ok (_, q2) => q2
    | .error _ => q
  | .rst id k n =>
    match Queue.resetForRetry q id k n with
    | .ok (_, q2) => q2
    | .error _ => q
  | .upd j =>
    match Queue.updateJob q j with
    | .ok q2 => q2
    | .error _ => q

def applyOps (q : QueueState) (ops : List QOp) : QueueState :=
  ops.foldl applyOp q

/-- Does the call target the given job id with a `complete`, `fail`,
`requeue` or `updateJob`? -/
def touches (op : QOp) (id : String) : Bool :=
  match op with
  | .comp i _ => decide (i = id)
  | .fl i _ _ => decide (i = id)
  | .req i _ => decide (i = id)
  | .upd j => decide (j.id = id)
  | _ => false

/-! ## Specification-side definitions used by the theorems -/

/-- The well-formedness facts `Job.validate` enforces, plus the fact (true
of every constructible job) that `backoff_base` is populated. -/
def GoodJob (j : Job) : Prop :=
  j.id ≠ "" ∧ j.command ≠ "" ∧ 0 ≤ j.attempts ∧ 0 ≤ j.max_retries ∧
    ∃ b, j.backoff_base = some b ∧ 1 ≤ b

/-- Non-strict lexicographic order on `(dueAt, seq)` keys. -/
def lexLe (a b : Int × Int) : Prop :=
  a.1 < b.1 ∨ (a.1 = b.1 ∧ a.2 ≤ b.2)

/-- Strict lexicographic order on `(dueAt, seq)` keys. -/
def lexLt (a b : Int × Int) : Prop :=
  a.1 < b.1 ∨ (a.1 = b.1 ∧ a.2 < b.2)

/-- The insertion sequence number the queue uses for an id (`?? 0`). -/
def seqOf (q : QueueState) (id : String) : Int :=
  (alookup q.insertionOrder id).getD 0

/-- Distinct jobs of the queue carry distinct insertion sequence numbers —
true of every queue built through `enqueue`, which hands out strictly
increasing positive numbers. -/
def SeqInj (q : QueueState) : Prop :=
  ∀ j1 j2 : Job, j1 ∈ q.jobs → j2 ∈ q.jobs → j1.id ≠ j2.id →
    seqOf q j1.id ≠ seqOf q j2.id

/-- The ids `dequeue` considers and finds due: members of the `pending` or
`failed` set whose stored job is due at `atTime`. -/
def dueCandidates (q : QueueState) (atTime : Int) : List String :=
  (q.byState.pending ++ q.byState.failed).filter (fun id =>
    match lookupJ q id with
    | some j => j.isDue atTime
    | none => false)

/-- What one `consider` step contributes for an id, as a standalone value:
`some` exactly when the id's job exists, is due, and is schedulable. -/
def candSel (q : QueueState) (atTime now : Int) (id : String) : Option Queue.Sel :=
  match lookupJ q id with
  | none => none
  | some job =>
    if job.isDue atTime then
      match Queue.effectiveDueAt job now with
      | none => none
      | some dueAt => some ⟨id, dueAt, seqOf q id⟩
    else none

/-- The `(dueAt, seq)` key of a selection. -/
def selKey (s : Queue.Sel) : Int × Int := (s.dueAt, s.seq)

/-- The job with this id is currently held in `processing` state. -/
def ProcessingHeld (q : QueueState) (id : String) : Prop :=
  ∃ j, lookupJ q id = some j ∧ j.state = .processing

/-- `i` repetitions of the pair `markProcessing(); markFailed(e)` starting
from `j`, the `k`-th pair executing at instant `ts k`. -/
def repFail (j : Job) (e : String) (ts : Nat → Int) : Nat → Except String Job
  | 0 => .ok j
  | i + 1 =>
    match repFail j e ts i with
    | .error s => .error s
    | .ok jc =>
      match jc.markProcessing (ts i) with
      | .error s => .error s
      | .ok j1 => j1.markFailed e (ts i)

/-! ## Concrete instances used by counterexamples and witnesses -/

/-- `Job.create("j1", "c", max_retries 1, backoff_base 2)` at instant 0. -/
def c1Created : Job :=
  { id := "j1", command := "c", state := .pending, attempts := 0,
    max_retries := 1, created_at := 0, updated_at := 0, run_at := none,
    next_attempt_at := none, backoff_base := some 2, last_error := none }

/-- `c1Created` after `markProcessing()` at instant 1. -/
def c1Proc1 : Job := { c1Created with state := .processing, updated_at := 1 }

/-- `c1Proc1` after `markFailed("e")` at instant 1: first failure, within
budget, so `failed` with `next_attempt_at = 1 + 2^1 s`. -/
def c1Failed : Job :=
  { c1Created with state := .failed, attempts := 1, updated_at := 1,
                   next_attempt_at := some 2001, last_error := some "e" }

/-- `c1Failed` after `markProcessing()` (the re-lease) at instant 3: in
`processing` state yet still carrying `next_attempt_at`. -/
def c1ProcAgain : Job :=
  { c1Failed with state := .processing, updated_at := 3 }

/-- The job of the end-to-end scenario: `enqueue "X"` with `max_retries=1`,
`backoff_base=2`, created at instant 0. -/
def c5Job : Job :=
  { id := "jx", command := "X", state := .pending, attempts := 0,
    max_retries := 1, created_at := 0, updated_at := 0, run_at := none,
    next_attempt_at := none, backoff_base := some 2, last_error := none }

/-- The store after enqueueing `c5Job`. -/
def c5Store0 : JsonStore := { jobs := [c5Job], dlq := [] }

/-- `c5Job` as returned by the first lease at instant 0. -/
def c5Leased : Job := { c5Job with state := .processing }

/-- The store after the first lease. -/
def c5Store1 : JsonStore := { jobs := [c5Leased], dlq := [] }

/-- `c5Leased` after `markFailed` at instant 0: one failure within budget,
`next_attempt_at = 0 + 2^1 s = 2000 ms`. -/
def c5Failed : Job :=
  { c5Job with state := .failed, attempts := 1,
               next_attempt_at := some 2000, last_error := some "e" }

/-- The store after persisting the failure. -/
def c5Store2 : JsonStore := { jobs := [c5Failed], dlq := [] }

/-- A pending job created at instant 100 with no `run_at`. -/
def jA : Job :=
  { id := "a", command := "c", state := .pending, attempts := 0,
    max_retries := 3, created_at := 100, updated_at := 100, run_at := none,
    next_attempt_at := none, backoff_base := some 2, last_error := none }

/-- The queue after `enqueue(jA)` on a fresh queue. -/
def qA1 : QueueState :=
  { jobs := [jA], stateOf := [("a", .pending)],
    byState := ⟨["a"], [], [], [], []⟩, insertSeq := 1,
    insertionOrder := [("a", 1)] }

/-- `jA` as returned by `dequeue(at = 0)` (wall clock 0). -/
def jAproc : Job := { jA with state := .processing, updated_at := 0 }

/-- The queue after that dequeue. -/
def qA2 : QueueState :=
  { jobs := [jAproc], stateOf := [("a", .processing)],
    byState := ⟨[], ["a"], [], [], []⟩, insertSeq := 1,
    insertionOrder := [("a", 1)] }

/-- A pending job created at instant 0. -/
def jB : Job :=
  { id := "b", command := "c", state := .pending, attempts := 0,
    max_retries := 3, created_at := 0, updated_at := 0, run_at := none,
    next_attempt_at := none, backoff_base := some 2, last_error := none }

/-- The queue after `enqueue(jB)` on a fresh queue. -/
def qB1 : QueueState :=
  { jobs := [jB], stateOf := [("b", .pending)],
    byState := ⟨["b"], [], [], [], []⟩, insertSeq := 1,
    insertionOrder := [("b", 1)] }

/-- `jB` as returned by `dequeue(at = 0)`. -/
def jBproc : Job := { jB with state := .processing, updated_at := 0 }

/-- The queue after that dequeue. -/
def qB2 : QueueState :=
  { jobs := [jBproc], stateOf := [("b", .processing)],
    byState := ⟨[], ["b"], [], [], []⟩, insertSeq := 1,
    insertionOrder := [("b", 1)] }

/-- Is the call one of `complete`, `fail`, `requeue`? (The interveners the
original claim C6 names.) -/
def isCompleteFailOrRequeue (op : QOp) : Bool :=
  match op with
  | .comp _ _ => true
  | .fl _ _ _ => true
  | .req _ _ => true
  | _ => false

/-- A dead job's DLQ snapshot with id `"jx"`. -/
def c9Snap : Job :=
  { id := "jx", command := "X", state := .dead, attempts := 2,
    max_retries := 1, created_at := 0, updated_at := 0, run_at := none,
    next_attempt_at := none, backoff_base := some 2, last_error := some "e" }

/-- A SQLite store whose main table and DLQ both hold the id `"jx"`
(reachable: enqueue, fail to dead, moveToDLQ, then enqueue a fresh job with
the same id). -/
def c9SStore : SqliteStore :=
  { jobs := [c5Job], dlq := [⟨"jx", c9Snap, 7⟩] }

/-! ## Theorems -/

theorem validate_ok_iff (j : Job) :
    j.validate = .ok () ↔
      (j.id ≠ "" ∧ j.command ≠ "" ∧ 0 ≤ j.attempts ∧ 0 ≤ j.max_retries ∧
        1 ≤ j.backoff_base.getD DEFAULT_BACKOFF_BASE) := by
  unfold Job.validate
  split_ifs with h1 h2 h3 h4 h5 <;> simp_all

theorem create_ok_inv {id cmd : String} {mr bb ra : Option Int} {now : Int}
    {j : Job} (h : Job.create id cmd mr bb ra now = .ok j) :
    j = Job.createRecord id cmd mr bb ra now ∧ j.validate = .ok () := by
  unfold Job.create at h
  split at h
  · exact absurd h (by simp)
  · next hv =>
      injection h with h
      subst h
      exact ⟨rfl, hv⟩

theorem markProcessing_ok_inv {j j' : Job} {now : Int}
    (h : j.markProcessing now = .ok j') :
    (j.state = .pending ∨ j.state = .failed) ∧
      j' = { j with state := .processing, updated_at := now } := by
  unfold Job.markProcessing at h
  split at h
  · next hc => injection h with h; exact ⟨hc, h.symm⟩
  · exact absurd h (by simp)

theorem markCompleted_ok_inv {j j' : Job} {now : Int}
    (h : j.markCompleted now = .ok j') :
    j.state = .processing ∧
      j' = { j with state := .completed, updated_at := now,
                    last_error := none, next_attempt_at := none } := by
  unfold Job.markCompleted at h
  split at h
  · next hc => injection h with h; exact ⟨hc, h.symm⟩
  · exact absurd h (by simp)

theorem markFailed_ok_inv {j j' : Job} {e : String} {now : Int}
    (h : j.markFailed e now = .ok j') :
    j.state = .processing ∧
      ((j.attempts + 1 > j.max_retries ∧
        j' = { j with attempts := j.attempts + 1, updated_at := now,
                      last_error := some e, state := .dead,
                      next_attempt_at := none }) ∨
       (¬ j.attempts + 1 > j.max_retries ∧
        j' = { j with attempts := j.attempts + 1, updated_at := now,
                      last_error := some e, state := .failed,
                      next_attempt_at :=
                        some (now + j.getBackoffDelaySeconds (j.attempts + 1) * 1000) })) := by
  unfold Job.markFailed at h
  split at h
  · next hc =>
      split at h
      · next hdead => injection h with h; exact ⟨hc, Or.inl ⟨hdead, h.symm⟩⟩
      · next hlive => injection h with h; exact ⟨hc, Or.inr ⟨hlive, h.symm⟩⟩
  · exact absurd h (by simp)

theorem resetForRetry_ok_inv {j j' : Job} {keep : Bool} {now : Int}
    (h : j.resetForRetry keep now = .ok j') :
    (j.state = .dead ∨ j.state = .failed) ∧
      j' = { j with attempts := if keep then j.attempts else 0,
                    state := .pending, updated_at := now,
                    next_attempt_at := none, last_error := none } := by
  unfold Job.resetForRetry at h
  split at h
  · next hc => injection h with h; exact ⟨hc, h.symm⟩
  · exact absurd h (by simp)

theorem fromJSON_ok_inv {json j : Job} (h : Job.fromJSON json = .ok j) :
    j = Job.normalizeRecord json ∧ j.validate = .ok () := by
  unfold Job.fromJSON at h
  split at h
  · exact absurd h (by simp)
  · next hv =>
      injection h with h
      subst h
      exact ⟨rfl, hv⟩

/-- Every reachable job satisfies the construction-time well-formedness
facts. -/
theorem reachable_good {j : Job} (h : Reachable j) : GoodJob j := by
  induction h with
  | create id cmd mr bb ra now j hc =>
      obtain ⟨hj, hval⟩ := create_ok_inv hc
      rw [validate_ok_iff] at hval
      obtain ⟨h1, h2, h3, h4, h5⟩ := hval
      subst hj
      exact ⟨h1, h2, h3, h4, bb.getD DEFAULT_BACKOFF_BASE, rfl, by
        simpa [Job.createRecord] using h5⟩
  | markProcessing j now j' _ hok ih =>
      obtain ⟨-, hj'⟩ := markProcessing_ok_inv hok
      subst hj'; exact ih
  | markCompleted j now j' _ hok ih =>
      obtain ⟨-, hj'⟩ := markCompleted_ok_inv hok
      subst hj'; exact ih
  | markFailed j e now j' _ hok ih =>
      obtain ⟨-, hbr⟩ := markFailed_ok_inv hok
      obtain ⟨h1, h2, h3, h4, b, hb, hb1⟩ := ih
      rcases hbr with ⟨-, hj'⟩ | ⟨-, hj'⟩ <;> subst hj' <;>
        exact ⟨h1, h2, show 0 ≤ j.attempts + 1 by omega, h4, b, hb, hb1⟩
  | resetForRetry j keep now j' _ hok ih =>
      obtain ⟨-, hj'⟩ := resetForRetry_ok_inv hok
      obtain ⟨h1, h2, h3, h4, b, hb, hb1⟩ := ih
      subst hj'
      refine ⟨h1, h2, ?_, h4, b, hb, hb1⟩
      show 0 ≤ if keep then j.attempts else 0
      cases keep
      · simp
      · simpa using h3
  | requeue j now _ hst ih =>
      obtain ⟨h1, h2, h3, h4, b, hb, hb1⟩ := ih
      exact ⟨h1, h2, h3, h4, b, hb, hb1⟩
  | lease j atTime now j' _ hdue hok ih =>
      obtain ⟨hj', -⟩ := fromJSON_ok_inv hok
      obtain ⟨h1, h2, h3, h4, b, hb, hb1⟩ := ih
      subst hj'
      exact ⟨h1, h2, h3, h4, b, by simp [Job.normalizeRecord, hb], hb1⟩

/-- The amended C1 invariant: a reachable job that is neither `failed` nor
`processing` carries no `next_attempt_at`. -/
theorem reachable_next_attempt_clear {j : Job} (h : Reachable j)
    (hs : j.state ≠ .failed ∧ j.state ≠ .processing) :
    j.next_attempt_at = none := by
  induction h with
  | create id cmd mr bb ra now j hc =>
      obtain ⟨hj, -⟩ := create_ok_inv hc
      subst hj; rfl
  | markProcessing j now j' _ hok ih =>
      obtain ⟨-, hj'⟩ := markProcessing_ok_inv hok
      subst hj'; exact absurd rfl hs.2
  | markCompleted j now j' _ hok ih =>
      obtain ⟨-, hj'⟩ := markCompleted_ok_inv hok
      subst hj'; rfl
  | markFailed j e now j' _ hok ih =>
      obtain ⟨-, hbr⟩ := markFailed_ok_inv hok
      rcases hbr with ⟨-, hj'⟩ | ⟨-, hj'⟩ <;> subst hj'
      · rfl
      · exact absurd rfl hs.1
  | resetForRetry j keep now j' _ hok ih =>
      obtain ⟨-, hj'⟩ := resetForRetry_ok_inv hok
      subst hj'; rfl
  | requeue j now _ hst ih => rfl
  | lease j atTime now j' _ hdue hok ih =>
      obtain ⟨hj', -⟩ := fromJSON_ok_inv hok
      subst hj'; exact absurd rfl hs.2

/-- C1: the claim as stated is false: the job below is reachable (create →
markProcessing → markFailed → markProcessing, i.e. a failed job re-leased
for its retry), is in `processing` state, and still has `next_attempt_at`
set, because neither `markProcessing` nor the storage `leaseNext`s clear
that field. -/
theorem claim_C1_counterexample :
    Reachable c1ProcAgain ∧ c1ProcAgain.state = .processing ∧
      c1ProcAgain.next_attempt_at = some 2001 := by
  refine ⟨?_, rfl, rfl⟩
  have h0 : Job.create "j1" "c" (some 1) (some 2) none 0 = .ok c1Created := by decide
  have h1 : c1Created.markProcessing 1 = .ok c1Proc1 := by decide
  have h2 : c1Proc1.markFailed "e" 1 = .ok c1Failed := by decide
  have h3 : c1Failed.markProcessing 3 = .ok c1ProcAgain := by decide
  exact .markProcessing _ 3 _
    (.markFailed _ "e" 1 _
      (.markProcessing _ 1 _ (.create _ _ _ _ _ _ _ h0) h1) h2) h3

/-- C1 (amended): for every job reachable from `create` via the transition
methods and storage leasing, `next_attempt_at` is set only by the
transition into `failed` and cleared on the transitions to `pending`,
`completed` and `dead`; a job in `dead`, `completed` or `pending` never has
`next_attempt_at` set.  (`markProcessing` and `leaseNext` do not clear it,
so a `processing` job re-leased from `failed` retains it.) -/
theorem claim_C1_amended {j : Job} (h : Reachable j)
    (hs : j.state = .pending ∨ j.state = .completed ∨ j.state = .dead) :
    j.next_attempt_at = none := by
  apply reachable_next_attempt_clear h
  rcases hs with hs | hs | hs <;> rw [hs] <;> exact ⟨by simp, by simp⟩

theorem claim_C1_witness :
    Reachable c1Created ∧ c1Created.state = .pending ∧
      c1Created.next_attempt_at = none := by
  have h0 : Job.create "j1" "c" (some 1) (some 2) none 0 = .ok c1Created := by decide
  have hr : Reachable c1Created := .create _ _ _ _ _ _ _ h0
  exact ⟨hr, rfl, claim_C1_amended hr (Or.inl rfl)⟩

/-- C7: `getBackoffDelaySeconds(n)` is exactly `backoff_base ^ n` for every
`n ≥ 0`, and `markFailed` from `processing`, when it does not produce
`dead`, produces `failed` with `next_attempt_at = now + backoff_base ^
attempts` seconds, `attempts` being the post-increment count. -/
theorem claim_C7_backoff (j : Job) (n : Int) (hn : 0 ≤ n) (e : String)
    (now : Int) (hs : j.state = .processing) :
    (j.getBackoffDelaySeconds n =
        (j.backoff_base.getD DEFAULT_BACKOFF_BASE) ^ n.toNat ∧ (n.toNat : Int) = n) ∧
    ∃ j', j.markFailed e now = .ok j' ∧ j'.attempts = j.attempts + 1 ∧
      (j'.state ≠ .dead →
        j'.state = .failed ∧
        j'.next_attempt_at =
          some (now +
            (j.backoff_base.getD DEFAULT_BACKOFF_BASE) ^ (j.attempts + 1).toNat * 1000)) := by
  refine ⟨⟨rfl, Int.toNat_of_nonneg hn⟩, ?_⟩
  unfold Job.markFailed
  rw [if_pos hs]
  by_cases hd : j.attempts + 1 > j.max_retries
  · rw [if_pos hd]
    exact ⟨_, rfl, rfl, fun hne => absurd rfl hne⟩
  · rw [if_neg hd]
    exact ⟨_, rfl, rfl, fun _ => ⟨rfl, rfl⟩⟩

theorem claim_C7_witness :
    (0 : Int) ≤ 3 ∧ c1Proc1.state = .processing ∧
      (c1Proc1.getBackoffDelaySeconds 3 =
          (c1Proc1.backoff_base.getD DEFAULT_BACKOFF_BASE) ^ (3 : Int).toNat ∧
        (((3 : Int).toNat : Int) = 3)) ∧
      ∃ j', c1Proc1.markFailed "e" 1 = .ok j' ∧ j'.attempts = c1Proc1.attempts + 1 ∧
        (j'.state ≠ .dead →
          j'.state = .failed ∧
          j'.next_attempt_at =
            some (1 +
              (c1Proc1.backoff_base.getD DEFAULT_BACKOFF_BASE) ^
                (c1Proc1.attempts + 1).toNat * 1000)) := by
  have h := claim_C7_backoff c1Proc1 3 (by decide) "e" 1 (by decide)
  exact ⟨by decide, by decide, h.1, h.2⟩

/-- The loop invariant for C4: as long as no more than `max_retries`
failures have happened, the `i`-th iterate exists, has `attempts = i`, and
is `pending` for `i = 0`, `failed` afterwards. -/
theorem repFail_invariant {id cmd : String} {m b : Int} {ra : Option Int}
    {now : Int} {j0 : Job}
    (hc : Job.create id cmd (some m) (some b) ra now = .ok j0)
    (e : String) (ts : Nat → Int) :
    ∀ i : Nat, (i : Int) ≤ m →
      ∃ j, repFail j0 e ts i = .ok j ∧ j.attempts = (i : Int) ∧
        j.max_retries = m ∧
        j.state = (if i = 0 then JobState.pending else JobState.failed) := by
  intro i
  induction i with
  | zero =>
      intro _
      obtain ⟨hj, -⟩ := create_ok_inv hc
      refine ⟨j0, rfl, ?_, ?_, ?_⟩ <;> (subst hj; rfl)
  | succ k ih =>
      intro hle
      have hk : (k : Int) ≤ m := by push_cast at hle ⊢; omega
      obtain ⟨j, hrep, ha, hm, hstate⟩ := ih hk
      have hpf : j.state = .pending ∨ j.state = .failed := by
        by_cases h0 : k = 0
        · left; rw [hstate, if_pos h0]
        · right; rw [hstate, if_neg h0]
      have hmp : j.markProcessing (ts k) =
          .ok { j with state := .processing, updated_at := ts k } := by
        unfold Job.markProcessing
        rw [if_pos hpf]
      have hnotdead :
          ¬ ({ j with state := JobState.processing, updated_at := ts k } : Job).attempts + 1 >
            ({ j with state := JobState.processing, updated_at := ts k } : Job).max_retries := by
        show ¬ j.attempts + 1 > j.max_retries
        rw [ha, hm]
        push_cast at hle ⊢
        omega
      refine ⟨{ j with state := JobState.failed, attempts := j.attempts + 1,
                       updated_at := ts k, last_error := some e,
                       next_attempt_at :=
                         some (ts k + j.getBackoffDelaySeconds (j.attempts + 1) * 1000) },
              ?_, ?_, hm, ?_⟩
      · show repFail j0 e ts (k + 1) = _
        unfold repFail
        simp only [hrep]
        simp only [hmp]
        unfold Job.markFailed
        rw [if_pos rfl, if_neg hnotdead]
        rfl
      · show j.attempts + 1 = (((k + 1 : Nat)) : Int)
        rw [ha]
        push_cast
        ring
      · show JobState.failed = if k + 1 = 0 then JobState.pending else JobState.failed
        rw [if_neg (Nat.succ_ne_zero k)]

/-- C4: for a job created with `max_retries = m` and `backoff_base = b`,
repeating `markProcessing(); markFailed(e)` yields state `failed` with
`attempts = i` after each of the first `m` failures, and state `dead` with
`attempts = m + 1` on the `(m+1)`-th; `attempts` always equals the number
of `markFailed` calls performed. -/
theorem claim_C4_retry_exhaustion (id cmd : String) (m b : Int)
    (ra : Option Int) (now : Int) (e : String) (ts : Nat → Int) (j0 : Job)
    (hc : Job.create id cmd (some m) (some b) ra now = .ok j0) :
    (∀ i : Nat, 1 ≤ i → (i : Int) ≤ m →
      ∃ j, repFail j0 e ts i = .ok j ∧ j.state = .failed ∧ j.attempts = (i : Int)) ∧
    (∀ i : Nat, (i : Int) = m + 1 →
      ∃ j, repFail j0 e ts i = .ok j ∧ j.state = .dead ∧ j.attempts = (i : Int)) := by
  constructor
  · intro i h1 hm
    obtain ⟨j, hrep, ha, -, hstate⟩ := repFail_invariant hc e ts i hm
    refine ⟨j, hrep, ?_, ha⟩
    rw [hstate, if_neg (by omega)]
  · intro i hi
    have hm0 : 0 ≤ m := by
      obtain ⟨hj, hval⟩ := create_ok_inv hc
      have := (validate_ok_iff j0).mp hval
      have h4 := this.2.2.2.1
      rw [hj] at h4
      simpa [Job.createRecord] using h4
    cases i with
    | zero => exfalso; push_cast at hi; omega
    | succ k =>
        have hk : (k : Int) ≤ m := by push_cast at hi ⊢; omega
        have hkm : (k : Int) = m := by push_cast at hi ⊢; omega
        obtain ⟨j, hrep, ha, hmr, hstate⟩ := repFail_invariant hc e ts k hk
        have hpf : j.state = .pending ∨ j.state = .failed := by
          by_cases h0 : k = 0
          · left; rw [hstate, if_pos h0]
          · right; rw [hstate, if_neg h0]
        have hmp : j.markProcessing (ts k) =
            .ok { j with state := .processing, updated_at := ts k } := by
          unfold Job.markProcessing
          rw [if_pos hpf]
        have hdead :
            ({ j with state := JobState.processing, updated_at := ts k } : Job).attempts + 1 >
              ({ j with state := JobState.processing, updated_at := ts k } : Job).max_retries := by
          show j.attempts + 1 > j.max_retries
          rw [ha, hmr]
          omega
        refine ⟨{ j with state := JobState.dead, attempts := j.attempts + 1,
                         updated_at := ts k, last_error := some e,
                         next_attempt_at := none },
                ?_, rfl, ?_⟩
        · show repFail j0 e ts (k + 1) = _
          unfold repFail
          simp only [hrep]
          simp only [hmp]
          unfold Job.markFailed
          rw [if_pos rfl, if_pos hdead]
        · show j.attempts + 1 = (((k + 1 : Nat)) : Int)
          rw [ha]
          push_cast
          ring

theorem claim_C4_witness :
    Job.create "j1" "c" (some 1) (some 2) none 0 = .ok c1Created ∧
      (∃ j, repFail c1Created "e" (fun _ => 1) 1 = .ok j ∧
        j.state = .failed ∧ j.attempts = ((1 : Nat) : Int)) ∧
      (∃ j, repFail c1Created "e" (fun _ => 1) 2 = .ok j ∧
        j.state = .dead ∧ j.attempts = ((2 : Nat) : Int)) := by
  have h0 : Job.create "j1" "c" (some 1) (some 2) none 0 = .ok c1Created := by decide
  have h := claim_C4_retry_exhaustion "j1" "c" 1 2 none 0 "e" (fun _ => 1)
    c1Created h0
  exact ⟨h0, h.1 1 (by omega) (by norm_num), h.2 2 (by norm_num)⟩

/-- C8: serialization round-trip — hydrating the serialized form of any
reachable job reproduces the job, every field included. -/
theorem claim_C8_roundtrip {j : Job} (h : Reachable j) :
    Job.fromJSON j.toJSON = .ok j := by
  obtain ⟨h1, h2, h3, h4, b, hb, hb1⟩ := reachable_good h
  have htj : j.toJSON = j := rfl
  have hnorm : Job.normalizeRecord j = j := by
    cases j with
    | mk jid cmd st att mr ca ua ra na bb le =>
        simp only [Job.normalizeRecord] at *
        simp only [Job.mk.injEq] at hb ⊢
        simp_all
  have hval : j.validate = .ok () := by
    rw [validate_ok_iff]
    exact ⟨h1, h2, h3, h4, by rw [hb]; simpa using hb1⟩
  unfold Job.fromJSON
  rw [htj, hnorm, hval]

theorem claim_C8_witness :
    Reachable c1ProcAgain ∧ Job.fromJSON c1ProcAgain.toJSON = .ok c1ProcAgain := by
  have h0 : Job.create "j1" "c" (some 1) (some 2) none 0 = .ok c1Created := by decide
  have h1 : c1Created.markProcessing 1 = .ok c1Proc1 := by decide
  have h2 : c1Proc1.markFailed "e" 1 = .ok c1Failed := by decide
  have h3 : c1Failed.markProcessing 3 = .ok c1ProcAgain := by decide
  have hr : Reachable c1ProcAgain :=
    .markProcessing _ 3 _
      (.markFailed _ "e" 1 _
        (.markProcessing _ 1 _ (.create _ _ _ _ _ _ _ h0) h1) h2) h3
  exact ⟨hr, claim_C8_roundtrip hr⟩

/-- C5: evaluation of the end-to-end scenario on the JSON backend.  The
first lease and failure behave as claimed (state `failed`, `attempts = 1`,
`next_attempt_at` exactly 2 s after the failure instant), but the second
`leaseNext` — at `next_attempt_at` itself and well past it — returns no
job: with `attempts = 1 = max_retries` the job is not `isRetryable`, hence
not due.  The repository's own integration test
(tests/integration.test.ts) expects that lease to return the job. -/
theorem claim_C5_scenario_eval :
    Job.create "jx" "X" (some 1) (some 2) none 0 = .ok c5Job ∧
    jsonEnqueue { jobs := [], dlq := [] } c5Job = .ok c5Store0 ∧
    jsonLeaseNext c5Store0 0 0 = .ok (some c5Leased, c5Store1) ∧
    c5Leased.markFailed "e" 0 = .ok c5Failed ∧
    c5Failed.state = .failed ∧ c5Failed.attempts = 1 ∧
    c5Failed.next_attempt_at = some 2000 ∧
    jsonUpdate c5Store1 c5Failed = .ok c5Store2 ∧
    jsonLeaseNext c5Store2 2000 2000 = .ok (none, c5Store2) ∧
    jsonLeaseNext c5Store2 10000 10000 = .ok (none, c5Store2) := by
  decide

theorem removeFirstById_of_absent {l : List Job} {id : String}
    (h : ∀ j ∈ l, j.id ≠ id) : removeFirstById l id = l := by
  induction l with
  | nil => rfl
  | cons j rest ih =>
      unfold removeFirstById
      rw [if_neg (h j (List.mem_cons_self j rest))]
      rw [ih (fun x hx => h x (List.mem_cons_of_mem j hx))]

theorem extractFirstById_of_absent {l : List Job} {id : String}
    (h : ∀ j ∈ l, j.id ≠ id) : extractFirstById l id = none := by
  induction l with
  | nil => rfl
  | cons j rest ih =>
      unfold extractFirstById
      rw [if_neg (h j (List.mem_cons_self j rest))]
      rw [ih (fun x hx => h x (List.mem_cons_of_mem j hx))]

/-- C10: `JsonStorage.moveToDLQ` appends the snapshot unconditionally — it
raises nothing when the id is absent from the main collection (which it
then leaves unchanged), and moving the same job twice yields two DLQ
entries with the same id — whereas `SqliteStorage.moveToDLQ` rejects a
duplicate DLQ id through the `dlq` primary key. -/
theorem claim_C10_move_to_dlq :
    (∀ (s : JsonStore) (job : Job),
      (jsonMoveToDLQ s job).dlq = s.dlq ++ [job.toJSON]) ∧
    (∀ (s : JsonStore) (job : Job), (∀ j ∈ s.jobs, j.id ≠ job.id) →
      (jsonMoveToDLQ s job).jobs = s.jobs) ∧
    (∀ (s : JsonStore) (job : Job),
      ((jsonMoveToDLQ (jsonMoveToDLQ s job) job).dlq.filter
          (fun j => decide (j.id = job.id))).length =
        (s.dlq.filter (fun j => decide (j.id = job.id))).length + 2) ∧
    (∀ (s : SqliteStore) (job : Job) (now : Int),
      s.dlq.any (fun r => r.id = job.id) = true →
      sqliteMoveToDLQ s job now = .error "UNIQUE constraint failed: dlq.id") := by
  refine ⟨fun s job => rfl, ?_, ?_, ?_⟩
  · intro s job h
    show removeFirstById s.jobs job.id = s.jobs
    exact removeFirstById_of_absent h
  · intro s job
    show (((s.dlq ++ [job.toJSON]) ++ [job.toJSON]).filter
        (fun j => decide (j.id = job.id))).length = _
    rw [List.filter_append, List.filter_append, List.length_append,
        List.length_append]
    have hj : ([job.toJSON].filter (fun j => decide (j.id = job.id))).length = 1 := by
      simp [List.filter, Job.toJSON]
    rw [hj]
  · intro s job now h
    unfold sqliteMoveToDLQ
    rw [if_pos h]

theorem claim_C10_witness :
    (jsonMoveToDLQ { jobs := [], dlq := [] } c5Job).dlq = [] ++ [c5Job.toJSON] ∧
    (jsonMoveToDLQ { jobs := [c1Created], dlq := [] } c5Job).jobs = [c1Created] ∧
    sqliteMoveToDLQ { jobs := [], dlq := [⟨"jx", c9Snap, 7⟩] } c5Job 8 =
      .error "UNIQUE constraint failed: dlq.id" := by
  refine ⟨claim_C10_move_to_dlq.1 _ _, ?_, ?_⟩
  · exact claim_C10_move_to_dlq.2.1 _ _ (by decide)
  · exact claim_C10_move_to_dlq.2.2.2 _ _ _ (by decide)

/-- C9: the claim as stated is false for `SqliteStorage`: with id `"jx"`
present in the DLQ (a dead snapshot) *and* in the main table, the revival
does not overwrite the main-table record — the plain INSERT violates the
primary key, the transaction rolls back, and an error is thrown.  And on
either backend a DLQ snapshot that is neither `dead` nor `failed` (which
`JsonStorage.moveToDLQ` accepts, see C10) makes `resetForRetry` throw
instead of reviving. -/
theorem claim_C9_counterexample :
    sqliteRetryFromDLQ c9SStore "jx" 8 = .error "UNIQUE constraint failed: jobs.id" ∧
    jsonRetryFromDLQ { jobs := [], dlq := [c5Job] } "jx" 8 =
      .error "Cannot resetForRetry from state" := by
  decide

/-- C9 (amended): `retryFromDLQ(id)` on an id absent from the DLQ returns
"not found" leaving both collections unchanged.  On an id whose snapshot is
`dead` or `failed`, `JsonStorage` removes the snapshot, revives it to
`pending` with `attempts = 0` (clearing `next_attempt_at`/`last_error`),
re-inserts it into the main collection overwriting an existing record with
the same id, and returns the revived job, all in one critical section;
`SqliteStorage` does the same in one transaction except that an id
collision with the main table violates the jobs primary key, rolling the
transaction back with an error (no overwrite).  A snapshot in any other
state makes `resetForRetry` throw on either backend, with no change
persisted. -/
theorem claim_C9_amended :
    (∀ (s : JsonStore) (id : String) (now : Int),
      (∀ j ∈ s.dlq, j.id ≠ id) →
      jsonRetryFromDLQ s id now = .ok (none, s)) ∧
    (∀ (s : JsonStore) (id : String) (now : Int) (snap : Job) (dlq2 : List Job),
      extractFirstById s.dlq id = some (snap, dlq2) →
      ∀ js, Job.fromJSON snap = .ok js →
      (js.state = .dead ∨ js.state = .failed) →
      ∃ j2, jsonRetryFromDLQ s id now =
          .ok (some j2, { jobs := upsertById s.jobs j2.toJSON, dlq := dlq2 }) ∧
        j2 = { js with attempts := 0, state := .pending, updated_at := now,
                       next_attempt_at := none, last_error := none }) ∧
    (∀ (s : JsonStore) (id : String) (now : Int) (snap : Job) (dlq2 : List Job),
      extractFirstById s.dlq id = some (snap, dlq2) →
      ∀ js, Job.fromJSON snap = .ok js →
      ¬ (js.state = .dead ∨ js.state = .failed) →
      jsonRetryFromDLQ s id now = .error "Cannot resetForRetry from state") ∧
    (∀ (s : SqliteStore) (id : String) (now : Int),
      s.dlq.find? (fun r => r.id = id) = none →
      sqliteRetryFromDLQ s id now = .ok (none, s)) ∧
    (∀ (s : SqliteStore) (id : String) (now : Int) (row : DlqRow),
      s.dlq.find? (fun r => r.id = id) = some row →
      ∀ js, Job.fromJSON row.payload = .ok js →
      (js.state = .dead ∨ js.state = .failed) →
      (∀ x ∈ s.jobs, x.id ≠ js.id) →
      ∃ j2, sqliteRetryFromDLQ s id now =
          .ok (some j2, { jobs := s.jobs ++ [j2.toJSON],
                          dlq := s.dlq.filter (fun r => decide (r.id ≠ id)) }) ∧
        j2 = { js with attempts := 0, state := .pending, updated_at := now,
                       next_attempt_at := none, last_error := none }) ∧
    (∀ (s : SqliteStore) (id : String) (now : Int) (row : DlqRow),
      s.dlq.find? (fun r => r.id = id) = some row →
      ∀ js, Job.fromJSON row.payload = .ok js →
      (js.state = .dead ∨ js.state = .failed) →
      (∃ x ∈ s.jobs, x.id = js.id) →
      sqliteRetryFromDLQ s id now = .error "UNIQUE constraint failed: jobs.id") ∧
    (∀ (s : SqliteStore) (id : String) (now : Int) (row : DlqRow),
      s.dlq.find? (fun r => r.id = id) = some row →
      ∀ js, Job.fromJSON row.payload = .ok js →
      ¬ (js.state = .dead ∨ js.state = .failed) →
      sqliteRetryFromDLQ s id now = .error "Cannot resetForRetry from state") := by
  refine ⟨?_, ?_, ?_, ?_, ?_, ?_, ?_⟩
  · intro s id now h
    unfold jsonRetryFromDLQ
    rw [extractFirstById_of_absent h]
  · intro s id now snap dlq2 hext js hjs hstate
    unfold jsonRetryFromDLQ
    simp only [hext]
    simp only [hjs]
    unfold Job.resetForRetry
    rw [if_pos hstate]
    exact ⟨_, rfl, rfl⟩
  · intro s id now snap dlq2 hext js hjs hstate
    unfold jsonRetryFromDLQ
    simp only [hext]
    simp only [hjs]
    unfold Job.resetForRetry
    rw [if_neg hstate]
  · intro s id now h
    unfold sqliteRetryFromDLQ
    rw [h]
  · intro s id now row hfind js hjs hstate habs
    have hreset : js.resetForRetry false now =
        .ok { js with attempts := 0, state := JobState.pending, updated_at := now,
                      next_attempt_at := none, last_error := none } := by
      unfold Job.resetForRetry
      rw [if_pos hstate]
      rfl
    unfold sqliteRetryFromDLQ
    simp only [hfind]
    simp only [hjs]
    simp only [hreset]
    have hany : (s.jobs.any fun x =>
        decide (x.id = ({ js with attempts := 0, state := JobState.pending,
                                  updated_at := now, next_attempt_at := none,
                                  last_error := none } : Job).id)) = false := by
      rw [List.any_eq_false]
      intro x hx
      simpa using habs x hx
    rw [if_neg (by simp [hany])]
    exact ⟨{ js with attempts := 0, state := JobState.pending, updated_at := now,
                     next_attempt_at := none, last_error := none }, rfl, rfl⟩
  · intro s id now row hfind js hjs hstate hcol
    have hreset : js.resetForRetry false now =
        .ok { js with attempts := 0, state := JobState.pending, updated_at := now,
                      next_attempt_at := none, last_error := none } := by
      unfold Job.resetForRetry
      rw [if_pos hstate]
      rfl
    unfold sqliteRetryFromDLQ
    simp only [hfind]
    simp only [hjs]
    simp only [hreset]
    have hany : (s.jobs.any fun x =>
        decide (x.id = ({ js with attempts := 0, state := JobState.pending,
                                  updated_at := now, next_attempt_at := none,
                                  last_error := none } : Job).id)) = true := by
      rw [List.any_eq_true]
      obtain ⟨x, hx, hxid⟩ := hcol
      exact ⟨x, hx, by simpa using hxid⟩
    rw [if_pos hany]
  · intro s id now row hfind js hjs hstate
    unfold sqliteRetryFromDLQ
    simp only [hfind]
    simp only [hjs]
    unfold Job.resetForRetry
    rw [if_neg hstate]

theorem claim_C9_witness :
    jsonRetryFromDLQ { jobs := [], dlq := [] } "d" 0 =
        .ok (none, { jobs := [], dlq := [] }) ∧
    (∃ j2, sqliteRetryFromDLQ { jobs := [], dlq := [⟨"jx", c9Snap, 7⟩] } "jx" 8 =
        .ok (some j2, { jobs := [] ++ [j2.toJSON],
                        dlq := ([⟨"jx", c9Snap, 7⟩] : List DlqRow).filter
                          (fun r => decide (r.id ≠ "jx")) }) ∧
      j2 = { c9Snap with attempts := 0, state := .pending, updated_at := 8,
                         next_attempt_at := none, last_error := none }) := by
  refine ⟨claim_C9_amended.1 { jobs := [], dlq := [] } "d" 0 (by simp), ?_⟩
  exact claim_C9_amended.2.2.2.2.1 { jobs := [], dlq := [⟨"jx", c9Snap, 7⟩] }
    "jx" 8 ⟨"jx", c9Snap, 7⟩ (by decide) c9Snap (by decide) (by decide) (by simp)

/-! ## Order lemmas for the dequeue selection -/

theorem lexLt_lexLe {a b : Int × Int} (h : lexLt a b) : lexLe a b := by
  unfold lexLt at h
  unfold lexLe
  omega

theorem lexLe_trans {a b c : Int × Int} (h1 : lexLe a b) (h2 : lexLe b c) :
    lexLe a c := by
  unfold lexLe at *
  omega

theorem not_lexLt_le {a b : Int × Int} (h : ¬ lexLt a b) : lexLe b a := by
  unfold lexLt at h
  unfold lexLe
  omega

theorem lexLe_ne_lexLt {a b : Int × Int} (h : lexLe a b) (hne : a.2 ≠ b.2) :
    lexLt a b := by
  unfold lexLe at h
  unfold lexLt
  omega

/-! ## Dequeue selection lemmas -/

theorem candSel_some_inv {q : QueueState} {atTime now : Int} {id : String}
    {c : Queue.Sel} (h : candSel q atTime now id = some c) :
    c.id = id ∧ c.seq = seqOf q id ∧
      ∃ j, lookupJ q id = some j ∧ j.isDue atTime = true ∧
        Queue.effectiveDueAt j now = some c.dueAt := by
  unfold candSel at h
  cases hl : lookupJ q id with
  | none => simp only [hl] at h; exact absurd h (by simp)
  | some job =>
      simp only [hl] at h
      by_cases hd : job.isDue atTime = true
      · rw [if_pos hd] at h
        cases he : Queue.effectiveDueAt job now with
        | none => simp only [he] at h; exact absurd h (by simp)
        | some d =>
            simp only [he] at h
            injection h with h
            subst h
            exact ⟨rfl, rfl, job, rfl, hd, he⟩
      · rw [if_neg hd] at h
        exact absurd h (by simp)

theorem effectiveDueAt_some_of_isDue {j : Job} {atTime : Int} (now : Int)
    (h : j.isDue atTime = true) :
    ∃ d, Queue.effectiveDueAt j now = some d := by
  unfold Job.isDue at h
  unfold Queue.effectiveDueAt
  split_ifs at h ⊢ with h1 h2
  · exact ⟨_, rfl⟩
  · exact ⟨_, rfl⟩

theorem isDue_state {j : Job} {atTime : Int} (h : j.isDue atTime = true) :
    j.state = .pending ∨ j.state = .failed := by
  unfold Job.isDue at h
  split_ifs at h with h1 h2
  · exact Or.inl h1
  · simp only [Bool.and_eq_true, decide_eq_true_eq] at h2
    exact Or.inr h2.1

theorem candSel_some_of_due {q : QueueState} {atTime : Int} (now : Int)
    {id : String} {j : Job} (hl : lookupJ q id = some j)
    (hd : j.isDue atTime = true) :
    ∃ c, candSel q atTime now id = some c := by
  obtain ⟨d, he⟩ := effectiveDueAt_some_of_isDue now hd
  refine ⟨⟨id, d, seqOf q id⟩, ?_⟩
  unfold candSel
  simp only [hl]
  rw [if_pos hd]
  simp only [he]

theorem dueCandidates_mem_inv {q : QueueState} {atTime : Int} {id : String}
    (h : id ∈ dueCandidates q atTime) :
    id ∈ q.byState.pending ++ q.byState.failed ∧
      ∃ j, lookupJ q id = some j ∧ j.isDue atTime = true := by
  unfold dueCandidates at h
  obtain ⟨hmem, hpred⟩ := List.mem_filter.mp h
  refine ⟨hmem, ?_⟩
  cases hl : lookupJ q id with
  | none => rw [hl] at hpred; exact absurd hpred (by simp)
  | some j => rw [hl] at hpred; exact ⟨j, rfl, hpred⟩

theorem mem_dueCandidates_of {q : QueueState} {atTime : Int} {id : String}
    {j : Job} (hmem : id ∈ q.byState.pending ++ q.byState.failed)
    (hl : lookupJ q id = some j) (hd : j.isDue atTime = true) :
    id ∈ dueCandidates q atTime := by
  unfold dueCandidates
  refine List.mem_filter.mpr ⟨hmem, ?_⟩
  rw [hl]
  exact hd

theorem dueCandidates_nil_of {q : QueueState} {atTime now : Int}
    (h : ∀ id ∈ q.byState.pending ++ q.byState.failed,
      candSel q atTime now id = none) :
    dueCandidates q atTime = [] := by
  by_contra hne
  obtain ⟨id, hid⟩ := List.exists_mem_of_ne_nil _ hne
  obtain ⟨hmem, j, hl, hd⟩ := dueCandidates_mem_inv hid
  obtain ⟨c, hc⟩ := candSel_some_of_due now hl hd
  rw [h id hmem] at hc
  exact absurd hc (by simp)

theorem consider_eq (q : QueueState) (atTime now : Int) (sel : Option Queue.Sel)
    (id : String) :
    Queue.consider q atTime now sel id =
      match candSel q atTime now id with
      | none => sel
      | some c =>
        match sel with
        | none => some c
        | some s =>
          if c.dueAt < s.dueAt ∨ (c.dueAt = s.dueAt ∧ c.seq < s.seq) then some c
          else sel := by
  unfold Queue.consider candSel
  cases hl : lookupJ q id with
  | none => simp only [hl]
  | some job =>
      simp only [hl]
      cases hd : job.isDue atTime with
      | false => rfl
      | true =>
          cases he : Queue.effectiveDueAt job now with
          | none => rfl
          | some d =>
              cases sel with
              | none => rfl
              | some s => rfl

theorem foldl_consider_none_inv (q : QueueState) (atTime now : Int) :
    ∀ (ids : List String) (acc : Option Queue.Sel),
      ids.foldl (Queue.consider q atTime now) acc = none →
      acc = none ∧ ∀ id ∈ ids, candSel q atTime now id = none := by
  intro ids
  induction ids with
  | nil =>
      intro acc h
      rw [List.foldl_nil] at h
      exact ⟨h, by simp⟩
  | cons id rest ih =>
      intro acc h
      rw [List.foldl_cons] at h
      obtain ⟨hacc, hrest⟩ := ih _ h
      rw [consider_eq] at hacc
      cases hc : candSel q atTime now id with
      | none =>
          simp only [hc] at hacc
          refine ⟨hacc, fun x hx => ?_⟩
          rcases List.mem_cons.mp hx with hx | hx
          · subst hx; exact hc
          · exact hrest x hx
      | some c =>
          exfalso
          simp only [hc] at hacc
          cases acc with
          | none => simp at hacc
          | some s =>
              dsimp only at hacc
              by_cases hlt : c.dueAt < s.dueAt ∨ (c.dueAt = s.dueAt ∧ c.seq < s.seq)
              · rw [if_pos hlt] at hacc; exact absurd hacc (by simp)
              · rw [if_neg hlt] at hacc; exact absurd hacc (by simp)

theorem foldl_consider_some_inv (q : QueueState) (atTime now : Int) :
    ∀ (ids : List String) (acc : Option Queue.Sel) (s : Queue.Sel),
      ids.foldl (Queue.consider q atTime now) acc = some s →
      (acc = some s ∨ (s.id ∈ ids ∧ candSel q atTime now s.id = some s)) ∧
      (∀ s0, acc = some s0 → lexLe (selKey s) (selKey s0)) ∧
      (∀ id ∈ ids, ∀ c, candSel q atTime now id = some c →
        lexLe (selKey s) (selKey c)) := by
  intro ids
  induction ids with
  | nil =>
      intro acc s h
      rw [List.foldl_nil] at h
      refine ⟨Or.inl h, fun s0 h0 => ?_, by simp⟩
      rw [h] at h0
      injection h0 with h0
      subst h0
      exact Or.inr ⟨rfl, le_refl _⟩
  | cons id rest ih =>
      intro acc s h
      rw [List.foldl_cons, consider_eq] at h
      cases hc : candSel q atTime now id with
      | none =>
          simp only [hc] at h
          obtain ⟨h1, h2, h3⟩ := ih _ _ h
          refine ⟨?_, h2, fun x hx c hcx => ?_⟩
          · rcases h1 with h1 | ⟨hm, hcs⟩
            · exact Or.inl h1
            · exact Or.inr ⟨List.mem_cons_of_mem _ hm, hcs⟩
          · rcases List.mem_cons.mp hx with hx | hx
            · subst hx; rw [hc] at hcx; exact absurd hcx (by simp)
            · exact h3 x hx c hcx
      | some c =>
          simp only [hc] at h
          cases acc with
          | none =>
              obtain ⟨h1, h2, h3⟩ := ih _ _ h
              have hle : lexLe (selKey s) (selKey c) := by
                rcases h1 with h1 | ⟨hm, hcs⟩
                · injection h1 with h1; subst h1; exact Or.inr ⟨rfl, le_refl _⟩
                · exact h2 c rfl
              refine ⟨?_, by simp, fun x hx c2 hcx => ?_⟩
              · rcases h1 with h1 | ⟨hm, hcs⟩
                · injection h1 with h1
                  subst h1
                  obtain ⟨hcid, -, -⟩ := candSel_some_inv hc
                  exact Or.inr ⟨by rw [hcid]; exact List.mem_cons_self _ _,
                    by rw [hcid]; exact hc⟩
                · exact Or.inr ⟨List.mem_cons_of_mem _ hm, hcs⟩
              · rcases List.mem_cons.mp hx with hx | hx
                · subst hx
                  rw [hc] at hcx
                  injection hcx with hcx
                  subst hcx
                  exact hle
                · exact h3 x hx c2 hcx
          | some s0 =>
              dsimp only at h
              by_cases hlt : c.dueAt < s0.dueAt ∨ (c.dueAt = s0.dueAt ∧ c.seq < s0.seq)
              · rw [if_pos hlt] at h
                obtain ⟨h1, h2, h3⟩ := ih _ _ h
                have hltk : lexLt (selKey c) (selKey s0) := hlt
                have hle : lexLe (selKey s) (selKey c) := by
                  rcases h1 with h1 | ⟨hm, hcs⟩
                  · injection h1 with h1; subst h1; exact Or.inr ⟨rfl, le_refl _⟩
                  · exact h2 c rfl
                refine ⟨?_, fun t ht => ?_, fun x hx c2 hcx => ?_⟩
                · rcases h1 with h1 | ⟨hm, hcs⟩
                  · injection h1 with h1
                    subst h1
                    obtain ⟨hcid, -, -⟩ := candSel_some_inv hc
                    exact Or.inr ⟨by rw [hcid]; exact List.mem_cons_self _ _,
                      by rw [hcid]; exact hc⟩
                  · exact Or.inr ⟨List.mem_cons_of_mem _ hm, hcs⟩
                · injection ht with ht
                  subst ht
                  exact lexLe_trans hle (lexLt_lexLe hltk)
                · rcases List.mem_cons.mp hx with hx | hx
                  · subst hx
                    rw [hc] at hcx
                    injection hcx with hcx
                    subst hcx
                    exact hle
                  · exact h3 x hx c2 hcx
              · rw [if_neg hlt] at h
                obtain ⟨h1, h2, h3⟩ := ih _ _ h
                have hnlt : ¬ lexLt (selKey c) (selKey s0) := hlt
                have hles0 : lexLe (selKey s) (selKey s0) := by
                  rcases h1 with h1 | ⟨hm, hcs⟩
                  · injection h1 with h1; subst h1; exact Or.inr ⟨rfl, le_refl _⟩
                  · exact h2 s0 rfl
                refine ⟨?_, fun t ht => ?_, fun x hx c2 hcx => ?_⟩
                · rcases h1 with h1 | ⟨hm, hcs⟩
                  · exact Or.inl h1
                  · exact Or.inr ⟨List.mem_cons_of_mem _ hm, hcs⟩
                · injection ht with ht
                  subst ht
                  exact hles0
                · rcases List.mem_cons.mp hx with hx | hx
                  · subst hx
                    rw [hc] at hcx
                    injection hcx with hcx
                    subst hcx
                    exact lexLe_trans hles0 (not_lexLt_le hnlt)
                  · exact h3 x hx c2 hcx

theorem lookupJ_id {q : QueueState} {id : String} {j : Job}
    (h : lookupJ q id = some j) : j.id = id := by
  unfold lookupJ findById at h
  simpa using List.find?_some h

theorem lookupJ_mem {q : QueueState} {id : String} {j : Job}
    (h : lookupJ q id = some j) : j ∈ q.jobs := by
  unfold lookupJ findById at h
  exact List.mem_of_find?_eq_some h

/-- The full case analysis of `Queue.dequeue`: either there is no due
candidate and it returns no job with the queue untouched, or it returns the
stored job of some due candidate id flipped to `processing`, with the
indexes updated, and that candidate's `(dueAt, seq)` key is minimal among
the keys of all due candidates. -/
theorem dequeue_cases (q : QueueState) (atTime now : Int) :
    (Queue.dequeue q atTime now = .ok (none, q) ∧ dueCandidates q atTime = []) ∨
    (∃ id j0 dueAt,
      lookupJ q id = some j0 ∧ j0.isDue atTime = true ∧
      Queue.effectiveDueAt j0 now = some dueAt ∧
      id ∈ dueCandidates q atTime ∧
      Queue.dequeue q atTime now =
        .ok (some { j0 with state := .processing, updated_at := now },
          moveState
            { q with jobs := setJ q.jobs { j0 with state := .processing, updated_at := now } }
            id .processing) ∧
      (∀ id2 ∈ dueCandidates q atTime, ∀ c2, candSel q atTime now id2 = some c2 →
        lexLe (dueAt, seqOf q id) (selKey c2))) := by
  unfold Queue.dequeue
  cases hf : (q.byState.pending ++ q.byState.failed).foldl
      (Queue.consider q atTime now) none with
  | none =>
      left
      refine ⟨rfl, ?_⟩
      exact dueCandidates_nil_of (foldl_consider_none_inv q atTime now _ _ hf).2
  | some s =>
      obtain ⟨h1, -, hmin⟩ := foldl_consider_some_inv q atTime now _ none s hf
      rcases h1 with h1 | ⟨hsmem, hcand⟩
      · exact absurd h1 (by simp)
      · obtain ⟨-, hcseq, j0, hlook, hdue, heff⟩ := candSel_some_inv hcand
        right
        have hmp : j0.markProcessing now =
            .ok { j0 with state := .processing, updated_at := now } := by
          unfold Job.markProcessing
          rw [if_pos (isDue_state hdue)]
        refine ⟨s.id, j0, s.dueAt, hlook, hdue, heff,
          mem_dueCandidates_of hsmem hlook hdue, ?_, ?_⟩
        · simp only [hlook, hmp]
        · intro id2 hid2 c2 hc2
          have hmem2 := (dueCandidates_mem_inv hid2).1
          have hle := hmin id2 hmem2 c2 hc2
          rw [← hcseq]
          exact hle

/-- C2: `Queue.dequeue(at)` considers exactly the due jobs of the `pending`
and `failed` sets; each candidate's effective due time is `run_at ??
created_at` for pending jobs and `next_attempt_at ?? now` for retryable
failed jobs; the returned job is the stored candidate minimal in the
lexicographic `(effective due time, insertion sequence)` order, transitioned
via `markProcessing`; with distinct insertion sequence numbers the minimum
is strict over every other candidate — ties in due time break by earliest
insertion, never by which set the job came from; no job is returned iff no
candidate is due. -/
theorem claim_C2_dequeue (q : QueueState) (atTime now : Int) (hseq : SeqInj q) :
    (Queue.dequeue q atTime now = .ok (none, q) ∧ dueCandidates q atTime = []) ∨
    (∃ id j0 dueAt,
      lookupJ q id = some j0 ∧ j0.isDue atTime = true ∧
      Queue.effectiveDueAt j0 now = some dueAt ∧
      id ∈ dueCandidates q atTime ∧
      Queue.dequeue q atTime now =
        .ok (some { j0 with state := .processing, updated_at := now },
          moveState
            { q with jobs := setJ q.jobs { j0 with state := .processing, updated_at := now } }
            id .processing) ∧
      (∀ id2 ∈ dueCandidates q atTime, ∀ c2, candSel q atTime now id2 = some c2 →
        lexLe (dueAt, seqOf q id) (selKey c2) ∧
        (id2 ≠ id → lexLt (dueAt, seqOf q id) (selKey c2)))) := by
  rcases dequeue_cases q atTime now with h | ⟨id, j0, dueAt, hlook, hdue, heff, hmem, hdq, hmin⟩
  · exact Or.inl h
  · right
    refine ⟨id, j0, dueAt, hlook, hdue, heff, hmem, hdq, ?_⟩
    intro id2 hid2 c2 hc2
    have hle := hmin id2 hid2 c2 hc2
    refine ⟨hle, fun hne => ?_⟩
    obtain ⟨hc2id, hc2seq, jj, hlook2, -, -⟩ := candSel_some_inv hc2
    apply lexLe_ne_lexLt hle
    show seqOf q id ≠ (selKey c2).2
    have hjid : j0.id = id := lookupJ_id hlook
    have hjjid : jj.id = id2 := lookupJ_id hlook2
    have := hseq j0 jj (lookupJ_mem hlook) (lookupJ_mem hlook2)
      (by rw [hjid, hjjid]; exact fun hcc => hne hcc.symm)
    rw [hjid, hjjid] at this
    show seqOf q id ≠ c2.seq
    rw [hc2seq]
    exact this

theorem claim_C2_witness :
    SeqInj qA1 ∧
    ((Queue.dequeue qA1 200 200 = .ok (none, qA1) ∧ dueCandidates qA1 200 = []) ∨
     (∃ id j0 dueAt,
       lookupJ qA1 id = some j0 ∧ j0.isDue 200 = true ∧
       Queue.effectiveDueAt j0 200 = some dueAt ∧
       id ∈ dueCandidates qA1 200 ∧
       Queue.dequeue qA1 200 200 =
         .ok (some { j0 with state := .processing, updated_at := 200 },
           moveState
             { qA1 with jobs := setJ qA1.jobs { j0 with state := .processing, updated_at := 200 } }
             id .processing) ∧
       (∀ id2 ∈ dueCandidates qA1 200, ∀ c2, candSel qA1 200 200 id2 = some c2 →
         lexLe (dueAt, seqOf qA1 id) (selKey c2) ∧
         (id2 ≠ id → lexLt (dueAt, seqOf qA1 id) (selKey c2))))) := by
  have hseq : SeqInj qA1 := by
    intro j1 j2 h1 h2 hne
    have e1 : j1 = jA := by simpa [qA1] using h1
    have e2 : j2 = jA := by simpa [qA1] using h2
    subst e1; subst e2
    exact absurd rfl hne
  exact ⟨hseq, claim_C2_dequeue qA1 200 200 hseq⟩

/-! ## Map-update lemmas for the no-repeat property -/

theorem findById_cons (j : Job) (l : List Job) (id : String) :
    findById (j :: l) id = if j.id = id then some j else findById l id := by
  unfold findById
  by_cases h : j.id = id
  · rw [if_pos h, List.find?_cons_of_pos _ (by simpa using h)]
  · rw [if_neg h, List.find?_cons_of_neg _ (by simpa using h)]

theorem findById_replaceFirst_ne {l : List Job} {rec : Job} {id : String}
    (h : rec.id ≠ id) :
    findById (replaceFirstById l rec) id = findById l id := by
  induction l with
  | nil => rfl
  | cons j rest ih =>
      unfold replaceFirstById
      by_cases hj : j.id = rec.id
      · rw [if_pos hj, findById_cons, findById_cons, if_neg h,
          if_neg (by rw [hj]; exact h)]
      · rw [if_neg hj, findById_cons, findById_cons]
        by_cases hji : j.id = id
        · rw [if_pos hji, if_pos hji]
        · rw [if_neg hji, if_neg hji, ih]

theorem findById_replaceFirst_self {l : List Job} {rec : Job}
    (h : l.any (fun x => x.id = rec.id) = true) :
    findById (replaceFirstById l rec) rec.id = some rec := by
  induction l with
  | nil => simp at h
  | cons j rest ih =>
      unfold replaceFirstById
      by_cases hj : j.id = rec.id
      · rw [if_pos hj, findById_cons, if_pos rfl]
      · rw [if_neg hj, findById_cons, if_neg hj]
        apply ih
        simp only [List.any_cons, Bool.or_eq_true, decide_eq_true_eq] at h
        rcases h with h | h
        · exact absurd h hj
        · exact h

theorem findById_append_ne {l : List Job} {j : Job} {id : String}
    (h : j.id ≠ id) : findById (l ++ [j]) id = findById l id := by
  induction l with
  | nil =>
      rw [List.nil_append, findById_cons, if_neg h]
  | cons k rest ih =>
      rw [List.cons_append, findById_cons, findById_cons]
      by_cases hk : k.id = id
      · rw [if_pos hk, if_pos hk]
      · rw [if_neg hk, if_neg hk, ih]

theorem findById_append_self {l : List Job} {j : Job}
    (h : findById l j.id = none) : findById (l ++ [j]) j.id = some j := by
  induction l with
  | nil => rw [List.nil_append, findById_cons, if_pos rfl]
  | cons k rest ih =>
      rw [findById_cons] at h
      by_cases hk : k.id = j.id
      · rw [if_pos hk] at h; exact absurd h (by simp)
      · rw [if_neg hk] at h
        rw [List.cons_append, findById_cons, if_neg hk]
        exact ih h

theorem findById_none_of_any_false {l : List Job} {id : String}
    (h : l.any (fun x => x.id = id) = false) : findById l id = none := by
  unfold findById
  rw [List.find?_eq_none]
  intro a ha
  simp only [List.any_eq_false, decide_eq_true_eq] at h
  simpa using h a ha

theorem findById_setJ_self (l : List Job) (j : Job) :
    findById (setJ l j) j.id = some j := by
  unfold setJ
  by_cases h : l.any (fun x => x.id = j.id) = true
  · rw [if_pos h]
    exact findById_replaceFirst_self h
  · rw [if_neg h]
    refine findById_append_self (findById_none_of_any_false ?_)
    simpa using h

theorem findById_setJ_ne {l : List Job} {j : Job} {id : String}
    (h : j.id ≠ id) : findById (setJ l j) id = findById l id := by
  unfold setJ
  by_cases ha : l.any (fun x => x.id = j.id) = true
  · rw [if_pos ha]
    exact findById_replaceFirst_ne h
  · rw [if_neg ha]
    exact findById_append_ne h

theorem processingHeld_of_jobs {q q2 : QueueState} {id : String}
    (h : ProcessingHeld q id) (hjobs : findById q2.jobs id = findById q.jobs id) :
    ProcessingHeld q2 id := by
  obtain ⟨j, hj, hs⟩ := h
  exact ⟨j, by unfold lookupJ at hj ⊢; rw [hjobs]; exact hj, hs⟩

theorem queue_enqueue_ok_inv {q : QueueState} {j2 : Job} {q2 : QueueState}
    (h : Queue.enqueue q j2 = .ok q2) :
    lookupJ q j2.id = none ∧ q2.jobs = setJ q.jobs j2 := by
  unfold Queue.enqueue at h
  by_cases he : (lookupJ q j2.id).isSome = true
  · rw [if_pos he] at h
    exact absurd h (by simp)
  · rw [if_neg he] at h
    split_ifs at h with hs
    dsimp only at h
    injection h with h
    subst h
    exact ⟨Option.not_isSome_iff_eq_none.mp (by simpa using he), rfl⟩

theorem queue_complete_jobs {q : QueueState} {id2 : String} {n : Int}
    {r : Job × QueueState} (h : Queue.complete q id2 n = .ok r) :
    ∃ w, r.2.jobs = setJ q.jobs w ∧ w.id = id2 := by
  unfold Queue.complete at h
  cases hl : lookupJ q id2 with
  | none => rw [hl] at h; exact absurd h (by simp)
  | some job =>
      simp only [hl] at h
      split_ifs at h with hst
      cases hmc : job.markCompleted n with
      | error e => simp only [hmc] at h; exact absurd h (by simp)
      | ok job2 =>
          simp only [hmc] at h
          injection h with h
          subst h
          obtain ⟨-, hj2⟩ := markCompleted_ok_inv hmc
          refine ⟨job2, rfl, ?_⟩
          rw [hj2]
          show job.id = id2
          exact lookupJ_id hl

theorem queue_fail_jobs {q : QueueState} {id2 e : String} {n : Int}
    {r : Job × QueueState} (h : Queue.fail q id2 e n = .ok r) :
    ∃ w, r.2.jobs = setJ q.jobs w ∧ w.id = id2 := by
  unfold Queue.fail at h
  cases hl : lookupJ q id2 with
  | none => rw [hl] at h; exact absurd h (by simp)
  | some job =>
      simp only [hl] at h
      split_ifs at h with hst
      cases hmf : job.markFailed e n with
      | error s => simp only [hmf] at h; exact absurd h (by simp)
      | ok job2 =>
          simp only [hmf] at h
          injection h with h
          subst h
          obtain ⟨-, hbr⟩ := markFailed_ok_inv hmf
          refine ⟨job2, rfl, ?_⟩
          rcases hbr with ⟨-, hj2⟩ | ⟨-, hj2⟩ <;>
            (rw [hj2]; show job.id = id2; exact lookupJ_id hl)

theorem queue_requeue_jobs {q : QueueState} {id2 : String} {n : Int}
    {r : Job × QueueState} (h : Queue.requeue q id2 n = .ok r) :
    ∃ w, r.2.jobs = setJ q.jobs w ∧ w.id = id2 := by
  unfold Queue.requeue at h
  cases hl : lookupJ q id2 with
  | none => rw [hl] at h; exact absurd h (by simp)
  | some job =>
      simp only [hl] at h
      split_ifs at h with hst
      injection h with h
      subst h
      refine ⟨{ job with state := JobState.pending, next_attempt_at := none,
                         updated_at := n }, rfl, ?_⟩
      show job.id = id2
      exact lookupJ_id hl

theorem queue_resetForRetry_inv {q : QueueState} {id2 : String} {keep : Bool}
    {n : Int} {r : Job × QueueState} (h : Queue.resetForRetry q id2 keep n = .ok r) :
    ∃ job w, lookupJ q id2 = some job ∧ (job.state = .dead ∨ job.state = .failed) ∧
      r.2.jobs = setJ q.jobs w ∧ w.id = id2 := by
  unfold Queue.resetForRetry at h
  cases hl : lookupJ q id2 with
  | none => rw [hl] at h; exact absurd h (by simp)
  | some job =>
      simp only [hl] at h
      cases hrs : job.resetForRetry keep n with
      | error s => simp only [hrs] at h; exact absurd h (by simp)
      | ok job2 =>
          simp only [hrs] at h
          injection h with h
          subst h
          obtain ⟨hpre, hj2⟩ := resetForRetry_ok_inv hrs
          refine ⟨job, job2, rfl, hpre, rfl, ?_⟩
          rw [hj2]
          show job.id = id2
          exact lookupJ_id hl

theorem queue_updateJob_jobs {q : QueueState} {j2 : Job} {q2 : QueueState}
    (h : Queue.updateJob q j2 = .ok q2) : q2.jobs = setJ q.jobs j2 := by
  unfold Queue.updateJob at h
  cases hl : lookupJ q j2.id with
  | none => rw [hl] at h; exact absurd h (by simp)
  | some job =>
      simp only [hl] at h
      split_ifs at h with hst <;> (injection h with h; subst h; rfl)

/-- A job held in `processing` stays held in `processing` across any Queue
call that does not `complete`, `fail`, `requeue` or `updateJob` it. -/
theorem applyOp_processing {q : QueueState} {id : String} (op : QOp)
    (hp : ProcessingHeld q id) (ht : touches op id = false) :
    ProcessingHeld (applyOp q op) id := by
  obtain ⟨jp, hjp, hst⟩ := hp
  cases op with
  | enq j2 =>
      show ProcessingHeld
        (match Queue.enqueue q j2 with | .ok q2 => q2 | .error _ => q) id
      cases he : Queue.enqueue q j2 with
      | error e => exact ⟨jp, hjp, hst⟩
      | ok q2 =>
          obtain ⟨hnone, hjobs⟩ := queue_enqueue_ok_inv he
          have hne : j2.id ≠ id := by
            intro hcc
            rw [hcc, hjp] at hnone
            exact absurd hnone (by simp)
          refine processingHeld_of_jobs ⟨jp, hjp, hst⟩ ?_
          rw [hjobs]
          exact findById_setJ_ne hne
  | deq a n =>
      show ProcessingHeld
        (match Queue.dequeue q a n with | .ok (_, q2) => q2 | .error _ => q) id
      rcases dequeue_cases q a n with ⟨hdq, -⟩ |
        ⟨sid, j0, dueAt, hlook, hdue, -, -, hdq, -⟩
      · rw [hdq]
        exact ⟨jp, hjp, hst⟩
      · rw [hdq]
        have hsid : sid ≠ id := by
          intro hcc
          subst hcc
          rw [hjp] at hlook
          injection hlook with hlook
          subst hlook
          rcases isDue_state hdue with hcs | hcs <;> rw [hst] at hcs <;>
            exact JobState.noConfusion hcs
        refine processingHeld_of_jobs ⟨jp, hjp, hst⟩ ?_
        show findById (setJ q.jobs { j0 with state := .processing, updated_at := n })
          id = findById q.jobs id
        refine findById_setJ_ne ?_
        show j0.id ≠ id
        rw [lookupJ_id hlook]
        exact hsid
  | comp id2 n =>
      show ProcessingHeld
        (match Queue.complete q id2 n with | .ok (_, q2) => q2 | .error _ => q) id
      cases he : Queue.complete q id2 n with
      | error e => exact ⟨jp, hjp, hst⟩
      | ok r =>
          obtain ⟨w, hjobs, hwid⟩ := queue_complete_jobs he
          have hne : w.id ≠ id := by
            rw [hwid]
            unfold touches at ht
            simpa using ht
          cases r with
          | mk rj rq =>
              refine processingHeld_of_jobs ⟨jp, hjp, hst⟩ ?_
              rw [hjobs]
              exact findById_setJ_ne hne
  | fl id2 e n =>
      show ProcessingHeld
        (match Queue.fail q id2 e n with | .ok (_, q2) => q2 | .error _ => q) id
      cases he : Queue.fail q id2 e n with
      | error s => exact ⟨jp, hjp, hst⟩
      | ok r =>
          obtain ⟨w, hjobs, hwid⟩ := queue_fail_jobs he
          have hne : w.id ≠ id := by
            rw [hwid]
            unfold touches at ht
            simpa using ht
          cases r with
          | mk rj rq =>
              refine processingHeld_of_jobs ⟨jp, hjp, hst⟩ ?_
              rw [hjobs]
              exact findById_setJ_ne hne
  | req id2 n =>
      show ProcessingHeld
        (match Queue.requeue q id2 n with | .ok (_, q2) => q2 | .error _ => q) id
      cases he : Queue.requeue q id2 n with
      | error s => exact ⟨jp, hjp, hst⟩
      | ok r =>
          obtain ⟨w, hjobs, hwid⟩ := queue_requeue_jobs he
          have hne : w.id ≠ id := by
            rw [hwid]
            unfold touches at ht
            simpa using ht
          cases r with
          | mk rj rq =>
              refine processingHeld_of_jobs ⟨jp, hjp, hst⟩ ?_
              rw [hjobs]
              exact findById_setJ_ne hne
  | rst id2 keep n =>
      show ProcessingHeld
        (match Queue.resetForRetry q id2 keep n with | .ok (_, q2) => q2 | .error _ => q) id
      cases he : Queue.resetForRetry q id2 keep n with
      | error s => exact ⟨jp, hjp, hst⟩
      | ok r =>
          obtain ⟨job, w, hlook, hpre, hjobs, hwid⟩ := queue_resetForRetry_inv he
          have hne : w.id ≠ id := by
            rw [hwid]
            intro hcc
            subst hcc
            rw [hjp] at hlook
            injection hlook with hlook
            subst hlook
            rcases hpre with hcs | hcs <;> rw [hst] at hcs <;>
              exact JobState.noConfusion hcs
          cases r with
          | mk rj rq =>
              refine processingHeld_of_jobs ⟨jp, hjp, hst⟩ ?_
              rw [hjobs]
              exact findById_setJ_ne hne
  | upd j2 =>
      show ProcessingHeld
        (match Queue.updateJob q j2 with | .ok q2 => q2 | .error _ => q) id
      cases he : Queue.updateJob q j2 with
      | error s => exact ⟨jp, hjp, hst⟩
      | ok q2 =>
          have hjobs := queue_updateJob_jobs he
          have hne : j2.id ≠ id := by
            unfold touches at ht
            simpa using ht
          refine processingHeld_of_jobs ⟨jp, hjp, hst⟩ ?_
          rw [hjobs]
          exact findById_setJ_ne hne

theorem applyOps_processing {ops : List QOp} {q : QueueState} {id : String}
    (hp : ProcessingHeld q id) (hops : ∀ op ∈ ops, touches op id = false) :
    ProcessingHeld (applyOps q ops) id := by
  induction ops generalizing q with
  | nil => exact hp
  | cons op rest ih =>
      exact ih (applyOp_processing op hp (hops op (List.mem_cons_self _ _)))
        (fun o ho => hops o (List.mem_cons_of_mem _ ho))

/-- C6: the claim as stated is false on two counts.  (i) `dequeue(at)` can
return a job whose effective due time lies strictly after the query time:
a pending job with no `run_at` is due at every instant, yet its effective
due time is its `created_at`, which can lie in the future of the query
time.  (ii) The same job (here even the identical job value) can be
returned by two dequeues with no intervening `complete`, `fail` or
`requeue`: the `updateJob` reconciliation call can put the id back into the
`pending` set. -/
theorem claim_C6_counterexample :
    (Queue.enqueue emptyQueue jA = .ok qA1 ∧
     Queue.dequeue qA1 0 0 = .ok (some jAproc, qA2) ∧
     Queue.effectiveDueAt jA 0 = some 100 ∧ (0 : Int) < 100) ∧
    (Queue.enqueue emptyQueue jB = .ok qB1 ∧
     Queue.dequeue qB1 0 0 = .ok (some jBproc, qB2) ∧
     applyOps qB2 [QOp.upd jB] = qB1 ∧
     ([QOp.upd jB].all fun op => !(isCompleteFailOrRequeue op)) = true ∧
     Queue.dequeue qB1 0 0 = .ok (some jBproc, qB2)) := by
  decide

/-- C6 (amended): `dequeue` returns only jobs that were stored and due at
the query time (transitioned to `processing`); and it never returns the
same job id in two dequeue calls without an intervening `complete`, `fail`,
`requeue` or `updateJob` on that job.  (The original claim fails without
`updateJob` in the intervener list, and a due job's *effective due time*
can still exceed the query time when its scheduling field is unset, so only
dueness — not due-time precedence — is guaranteed.) -/
theorem claim_C6_amended {q : QueueState} {atTime now : Int} {j : Job}
    {q2 : QueueState} (hdq : Queue.dequeue q atTime now = .ok (some j, q2)) :
    (∃ j0, lookupJ q j.id = some j0 ∧ j0.isDue atTime = true ∧
      j = { j0 with state := .processing, updated_at := now }) ∧
    (∀ ops : List QOp, (∀ op ∈ ops, touches op j.id = false) →
      ∀ atTime2 now2 j2 q3,
        Queue.dequeue (applyOps q2 ops) atTime2 now2 = .ok (some j2, q3) →
        j2.id ≠ j.id) := by
  rcases dequeue_cases q atTime now with ⟨hdq0, -⟩ |
    ⟨sid, j0, dueAt, hlook, hdue, -, -, hdq0, -⟩
  · rw [hdq0] at hdq
    exact absurd hdq (by simp)
  · rw [hdq0] at hdq
    simp only [Except.ok.injEq, Prod.mk.injEq, Option.some.injEq] at hdq
    obtain ⟨hj, hq2⟩ := hdq
    have hjid : j.id = sid := by
      rw [← hj]
      show j0.id = sid
      exact lookupJ_id hlook
    constructor
    · exact ⟨j0, by rw [hjid]; exact hlook, hdue, hj.symm⟩
    · intro ops hops atTime2 now2 j2 q3 hdq2
      have hheld : ProcessingHeld q2 j.id := by
        rw [← hq2]
        refine ⟨j, ?_, ?_⟩
        · show findById
            (setJ q.jobs { j0 with state := .processing, updated_at := now }) j.id
            = some j
          rw [hj]
          exact findById_setJ_self q.jobs j
        · rw [← hj]
      have hheld2 := applyOps_processing hheld hops
      rcases dequeue_cases (applyOps q2 ops) atTime2 now2 with ⟨hdq3, -⟩ |
        ⟨sid2, j02, d2, hlook2, hdue2, -, -, hdq3, -⟩
      · rw [hdq3] at hdq2
        exact absurd hdq2 (by simp)
      · rw [hdq3] at hdq2
        simp only [Except.ok.injEq, Prod.mk.injEq, Option.some.injEq] at hdq2
        obtain ⟨hj2, -⟩ := hdq2
        intro hcc
        have hj2id : j2.id = sid2 := by
          rw [← hj2]
          show j02.id = sid2
          exact lookupJ_id hlook2
        obtain ⟨jp, hjp, hstp⟩ := hheld2
        rw [hcc] at hj2id
        rw [← hj2id] at hlook2
        rw [hjp] at hlook2
        injection hlook2 with hlook2
        rcases isDue_state hdue2 with hps | hps <;>
          rw [← hlook2, hstp] at hps <;> exact JobState.noConfusion hps

theorem claim_C6_witness :
    (∃ j0, lookupJ qB1 jBproc.id = some j0 ∧ j0.isDue 0 = true ∧
      jBproc = { j0 with state := .processing, updated_at := 0 }) ∧
    (∀ atTime2 now2 j2 q3,
      Queue.dequeue (applyOps qB2 []) atTime2 now2 = .ok (some j2, q3) →
      j2.id ≠ jBproc.id) := by
  have h := @claim_C6_amended qB1 0 0 jBproc qB2 (by decide)
  exact ⟨h.1, h.2 [] (by simp)⟩

end QueueCTL
